import Mathlib

/-!
Verification of the mosaic-cs numeric modules: a shallow embedding in Lean 4 of
`api/linear_algebra.py`, `api/data_science/statlab/statistics.py` and the PCA
route of `api/main.py` / `api/data_science/vektor/routes.py`.

Modelling conventions:
* Python `float` values are idealized as real numbers (exact arithmetic).
* A NumPy array built from a `list[list[float]]` is modelled by `NpArr`,
  which records the shape tuple exactly as NumPy computes it (rectangular
  nested lists give a 2-entry shape, the empty list gives the 1-entry
  shape `(0,)`, ragged lists a 1-entry shape).
* Python exceptions are modelled by `PyErr`; fallible functions return
  `Except PyErr _`.  Indexing a shape tuple out of range raises
  `IndexError`, exactly as `data.shape[1]` does on a 1-D array.
* Library calls (`np.linalg.eig`, `np.linalg.det`, `np.cov`, `np.histogram`,
  pandas statistics and `DataFrame.corr`) are modelled by definitions that
  follow the libraries' documented semantics, specialized to the shapes the
  repository uses; each such model is marked in its doc comment.
-/

noncomputable section

/-- Model of the Python exceptions raised by the embedded code. -/
inductive PyErr
  | valueError (msg : String)
  | indexError (msg : String)
  | typeError (msg : String)
  deriving DecidableEq

/-- Model of a NumPy `ndarray` obtained from a `list[list[float]]`:
the shape tuple together with the row data. -/
structure NpArr where
  shape : List Nat
  rows : List (List ℝ)

/-- Model of `np.array` on a `list[list[float]]`: a rectangular nested list
gives a 2-D array of shape `(n, m)`; the empty list gives shape `(0,)`;
ragged rows give a 1-entry shape (they do not produce a 2-D array). -/
def npArray (rows : List (List ℝ)) : NpArr :=
  match rows with
  | [] => ⟨[0], []⟩
  | r :: rs =>
    if (r :: rs).all (fun row => row.length = r.length) then
      ⟨[(r :: rs).length, r.length], r :: rs⟩
    else
      ⟨[(r :: rs).length], r :: rs⟩

/-- Model of Python tuple indexing `t[i]` on a shape tuple: raises
`IndexError` when the index is out of range. -/
def tupleGet (t : List Nat) (i : Nat) : Except PyErr Nat :=
  if h : i < t.length then Except.ok (t.get ⟨i, h⟩)
  else Except.error (PyErr.indexError ("tuple index out of range"))

/-- Entry `rows[i][j]` of a 2-D array, with junk default outside bounds
(only used after a shape guard has established the bounds). -/
def NpArr.entry (m : NpArr) (i j : Nat) : ℝ :=
  (m.rows.getD i []).getD j 0

/-- A concrete 2×2 real matrix `[[a, b], [c, d]]`. -/
structure Mat2 where
  a : ℝ
  b : ℝ
  c : ℝ
  d : ℝ

/-- Matrix–vector product of a 2×2 matrix with a 2-D point: each output
coordinate is the dot product of a row of the matrix with the point. -/
def Mat2.apply (m : Mat2) (v : ℝ × ℝ) : ℝ × ℝ :=
  (m.a * v.1 + m.b * v.2, m.c * v.1 + m.d * v.2)

/-- The 2×2 matrix held by a shape-`(2,2)` array. -/
def NpArr.toMat2 (m : NpArr) : Mat2 :=
  ⟨m.entry 0 0, m.entry 0 1, m.entry 1 0, m.entry 1 1⟩

/-- Embedding of `transform_points` (`api/linear_algebra.py`): validates that
the matrix is 2×2 (else `ValueError`), then computes `points @ matrix.T`,
i.e. applies the matrix to each point in order. -/
def transform_points (points : List (ℝ × ℝ)) (matrix : NpArr) :
    Except PyErr (List (ℝ × ℝ)) :=
  if matrix.shape = [2, 2] then
    Except.ok (points.map matrix.toMat2.apply)
  else
    Except.error (PyErr.valueError ("Matrix must be 2x2"))

/-- Embedding of `compute_determinant` (`api/linear_algebra.py`): validates
2×2 shape (else `ValueError`), then returns `np.linalg.det`, which for a
2×2 matrix `[[a,b],[c,d]]` is `a*d - b*c`. -/
def compute_determinant (matrix : NpArr) : Except PyErr ℝ :=
  if matrix.shape = [2, 2] then
    Except.ok (matrix.toMat2.a * matrix.toMat2.d - matrix.toMat2.b * matrix.toMat2.c)
  else
    Except.error (PyErr.valueError ("Matrix must be 2x2"))

/-- Model of `np.linspace(start, stop, num)` with `endpoint=True`:
`num` evenly spaced values from `start` to `stop`. -/
def linspace (start stop : ℝ) (num : Nat) : List ℝ :=
  match num with
  | 0 => []
  | 1 => [start]
  | Nat.succ (Nat.succ k) =>
    (List.range (k + 2)).map
      (fun i : Nat => start + (i : ℝ) * ((stop - start) / (((k + 2 : Nat) : ℝ) - 1)))

/-- Embedding of `generate_grid` (`api/linear_algebra.py`): the horizontal
traversal (x varying fastest within each fixed y) followed by the vertical
traversal (y varying within each fixed x) of the raster
`linspace(-range_val, range_val, size)` × same. -/
def generate_grid (size : Nat) (range_val : ℝ) : List (ℝ × ℝ) :=
  let x := linspace (-range_val) range_val size
  let y := linspace (-range_val) range_val size
  (y.flatMap (fun yi => x.map (fun xi => (xi, yi)))) ++
    (x.flatMap (fun xi => y.map (fun yi => (xi, yi))))

/-- Euclidean norm of a real 2-D vector (model of `np.linalg.norm`). -/
def norm2 (v : ℝ × ℝ) : ℝ :=
  Real.sqrt (v.1 ^ 2 + v.2 ^ 2)

/-- Division of a real 2-D vector by a scalar (NumPy broadcasting `v / n`). -/
def vecDiv (v : ℝ × ℝ) (n : ℝ) : ℝ × ℝ :=
  (v.1 / n, v.2 / n)

/-- Euclidean norm of a complex 2-D vector (model of `np.linalg.norm` on a
complex column). -/
def norm2C (v : ℂ × ℂ) : ℝ :=
  Real.sqrt (Complex.normSq v.1 + Complex.normSq v.2)

/-- Division of a complex 2-D vector by a real scalar. -/
def vecDivC (v : ℂ × ℂ) (n : ℝ) : ℂ × ℂ :=
  (v.1 / (n : ℂ), v.2 / (n : ℂ))

/-- Model of `np.linalg.eig` on a real 2×2 matrix, complex-capable.
Returns the exact eigenvalues (roots of the characteristic polynomial,
with the `+√disc` root listed first) and one eigenvector per eigenvalue,
column `i` belonging to eigenvalue `i`.  LAPACK's eigenvector scaling and
its eigenvalue order differ in general; every property verified below is
invariant under those choices because the code under verification either
normalizes the columns or treats the eigenvalues as an unordered pair. -/
def eigGen (m : Mat2) : (ℂ × ℂ) × ((ℂ × ℂ) × (ℂ × ℂ)) :=
  let tr := m.a + m.d
  let det := m.a * m.d - m.b * m.c
  let disc := tr ^ 2 - 4 * det
  let s : ℂ := if 0 ≤ disc then ((Real.sqrt disc : ℝ) : ℂ)
               else Complex.I * ((Real.sqrt (-disc) : ℝ) : ℂ)
  let l1 := ((tr : ℂ) + s) / 2
  let l2 := ((tr : ℂ) - s) / 2
  let vecs : (ℂ × ℂ) × (ℂ × ℂ) :=
    if m.b ≠ 0 then
      (((m.b : ℂ), l1 - (m.a : ℂ)), ((m.b : ℂ), l2 - (m.a : ℂ)))
    else if m.c ≠ 0 then
      ((l1 - (m.d : ℂ), (m.c : ℂ)), (l2 - (m.d : ℂ), (m.c : ℂ)))
    else if m.d ≤ m.a then
      ((1, 0), (0, 1))
    else
      ((0, 1), (1, 0))
  ((l1, l2), vecs)

/-- Embedding of `compute_eigen` (`api/linear_algebra.py`): validates 2×2
shape (else `ValueError`), calls `np.linalg.eig`, then divides every
eigenvector column by its Euclidean norm. -/
def compute_eigen (matrix : NpArr) :
    Except PyErr ((ℂ × ℂ) × ((ℂ × ℂ) × (ℂ × ℂ))) :=
  if matrix.shape = [2, 2] then
    let r := eigGen matrix.toMat2
    let v1 := r.2.1
    let v2 := r.2.2
    Except.ok (r.1, (vecDivC v1 (norm2C v1), vecDivC v2 (norm2C v2)))
  else
    Except.error (PyErr.valueError ("Matrix must be 2x2"))

/-- Model of `np.linalg.eig` on a real *symmetric* 2×2 matrix
`[[a, b], [b, d]]` (NumPy returns real arrays there since every eigenvalue
is real): the eigenvalues `((a+d) ± √((a-d)²+4b²))/2` with the `+` root
first, and one real eigenvector per eigenvalue. -/
def eigSym (m : Mat2) : (ℝ × ℝ) × ((ℝ × ℝ) × (ℝ × ℝ)) :=
  let s := Real.sqrt ((m.a - m.d) ^ 2 + 4 * m.b ^ 2)
  let l1 := (m.a + m.d + s) / 2
  let l2 := (m.a + m.d - s) / 2
  let vecs : (ℝ × ℝ) × (ℝ × ℝ) :=
    if m.b ≠ 0 then
      ((m.b, l1 - m.a), (m.b, l2 - m.a))
    else if m.d ≤ m.a then
      ((1, 0), (0, 1))
    else
      ((0, 1), (1, 0))
  ((l1, l2), vecs)

/-- Column-wise mean of an `(n, 2)` point list (model of
`np.mean(data, axis=0)`). -/
def colMean (d : List (ℝ × ℝ)) : ℝ × ℝ :=
  ((d.map Prod.fst).sum / d.length, (d.map Prod.snd).sum / d.length)

/-- The centered data `data - mean` of `compute_pca`. -/
def center (d : List (ℝ × ℝ)) : List (ℝ × ℝ) :=
  d.map (fun p => (p.1 - (colMean d).1, p.2 - (colMean d).2))

/-- Model of `np.cov(centered_data.T)` for `n` observations of 2 variables
whose sample means are exactly zero (`centered_data` is exactly centered in
real arithmetic): the symmetric matrix of second moments divided by `n-1`. -/
def covMat (c : List (ℝ × ℝ)) (n : Nat) : Mat2 :=
  ⟨(c.map (fun p => p.1 * p.1)).sum / ((n : ℝ) - 1),
   (c.map (fun p => p.1 * p.2)).sum / ((n : ℝ) - 1),
   (c.map (fun p => p.1 * p.2)).sum / ((n : ℝ) - 1),
   (c.map (fun p => p.2 * p.2)).sum / ((n : ℝ) - 1)⟩

/-- The covariance matrix `compute_pca` builds for a point list. -/
def pcaCov (d : List (ℝ × ℝ)) : Mat2 :=
  covMat (center d) d.length

/-- The total variance (trace of the covariance matrix) of a point list. -/
def totalVariance (d : List (ℝ × ℝ)) : ℝ :=
  (pcaCov d).a + (pcaCov d).d

/-- Result record of `compute_pca`; `pc1`/`pc2` are the two columns of the
`principal_components` matrix, `ev1`/`ev2` the two entries of
`explained_variance`. -/
structure PCAResult where
  pc1 : ℝ × ℝ
  pc2 : ℝ × ℝ
  ev1 : ℝ
  ev2 : ℝ
  projected_data : List (ℝ × ℝ)
  mean : ℝ × ℝ

/-- The numeric core of `compute_pca` after the shape guard: center, build
the covariance matrix, eigendecompose, sort the eigenpairs by eigenvalue
descending (the code's `argsort()[::-1]`, which on a 2-vector `[l1, l2]`
yields `[1, 0]` when `l1 ≤ l2` and `[0, 1]` otherwise), normalize the
eigenvector columns, project, and normalize the eigenvalues to fractions. -/
def pcaCore (d : List (ℝ × ℝ)) : PCAResult :=
  let c := center d
  let cov := pcaCov d
  let e := eigSym cov
  let sorted := if e.1.1 ≤ e.1.2 then ((e.1.2, e.2.2), (e.1.1, e.2.1))
                else ((e.1.1, e.2.1), (e.1.2, e.2.2))
  let l1 := sorted.1.1
  let l2 := sorted.2.1
  let w1 := vecDiv sorted.1.2 (norm2 sorted.1.2)
  let w2 := vecDiv sorted.2.2 (norm2 sorted.2.2)
  { pc1 := w1
    pc2 := w2
    ev1 := l1 / (l1 + l2)
    ev2 := l2 / (l1 + l2)
    projected_data := c.map (fun p => (p.1 * w1.1 + p.2 * w1.2, p.1 * w2.1 + p.2 * w2.2))
    mean := colMean d }

/-- Rows of a shape-`(n, 2)` array as a list of 2-D points. -/
def toPairs (rows : List (List ℝ)) : List (ℝ × ℝ) :=
  rows.map (fun r => (r.getD 0 0, r.getD 1 0))

/-- A 2-D point as the row `[x, y]` of a `list[list[float]]` payload. -/
def toRow (p : ℝ × ℝ) : List ℝ :=
  [p.1, p.2]

/-- Embedding of `compute_pca` (`api/linear_algebra.py`): reads
`data.shape[1]` (an `IndexError` on 1-D arrays, since the shape tuple has a
single entry), raises `ValueError` when that second dimension is not 2, and
otherwise runs the PCA pipeline. -/
def compute_pca (data : NpArr) : Except PyErr PCAResult :=
  match tupleGet data.shape 1 with
  | Except.error e => Except.error e
  | Except.ok d1 =>
    if d1 ≠ 2 then Except.error (PyErr.valueError ("Data must be 2D (n, 2)"))
    else Except.ok (pcaCore (toPairs data.rows))

/-- Response of a FastAPI endpoint: a successful JSON body, an
`HTTPException` carrying a status code, or an exception the route body let
propagate (which the framework turns into a plain server error, not a 4xx
response). -/
inductive HttpResp (α : Type)
  | ok (body : α)
  | httpException (status : Nat) (detail : String)
  | serverError (e : PyErr)

/-- Embedding of the `pca` route (`api/main.py` and
`api/data_science/vektor/routes.py`, identical bodies): builds
`np.array(request.data)` and calls `compute_pca` with no exception
handling, so any `ValueError`/`IndexError` from `compute_pca` propagates
out of the route unhandled. -/
def pcaRoute (reqData : List (List ℝ)) :
    HttpResp (List (List ℝ) × PCAResult) :=
  match compute_pca (npArray reqData) with
  | Except.error e => HttpResp.serverError e
  | Except.ok r => HttpResp.ok (reqData, r)

/-- A pandas column: a numeric (float) column whose missing entries are
`none`, or a non-numeric (object-dtype) column. -/
inductive Column
  | numeric (vals : List (Option ℝ))
  | object (vals : List String)

/-- A pandas `DataFrame`: named columns in order. -/
structure DataFrame where
  cols : List (String × Column)

/-- Model of `df.select_dtypes(include=[np.number]).columns` together with
the column data: the numeric columns, in frame order. -/
def numericCols (df : DataFrame) : List (String × List (Option ℝ)) :=
  df.cols.filterMap (fun c =>
    match c.2 with
    | Column.numeric v => some (c.1, v)
    | Column.object _ => none)

/-- Model of `Series.dropna`: the non-missing values, in order. -/
def dropna (v : List (Option ℝ)) : List ℝ :=
  v.filterMap id

/-- Number of missing entries of a column (model of `df[col].isna().sum()`). -/
def countMissing (v : List (Option ℝ)) : Nat :=
  v.countP (fun x => x.isNone)

/-- Minimum of a nonempty list of reals (model of `Series.min`; junk 0 on
the empty list, which the callers below rule out). -/
def listMin : List ℝ → ℝ
  | [] => 0
  | x :: t => t.foldl min x

/-- Maximum of a nonempty list of reals (model of `Series.max`). -/
def listMax : List ℝ → ℝ
  | [] => 0
  | x :: t => t.foldl max x

/-- Ascending sort used by the quantile/median models. -/
def sortAsc (d : List ℝ) : List ℝ :=
  d.insertionSort (fun x y => x ≤ y)

/-- Model of `Series.mean` on non-missing data. -/
def seriesMean (d : List ℝ) : ℝ :=
  d.sum / d.length

/-- Middle of `n` sorted values: the central element for odd `n`, the
average of the two central elements for even `n`. -/
def medianOfSorted (n : Nat) (s : List ℝ) : ℝ :=
  if n % 2 = 1 then s.getD (n / 2) 0
  else (s.getD (n / 2 - 1) 0 + s.getD (n / 2) 0) / 2

/-- Linear-interpolation quantile over `n` sorted values: with
`h = q*(n-1)`, returns `s[⌊h⌋] + (h-⌊h⌋)*(s[⌊h⌋+1]-s[⌊h⌋])` (the upper
index clipped to the last element, as NumPy does). -/
def quantileOfSorted (q : ℝ) (n : Nat) (s : List ℝ) : ℝ :=
  let h := q * ((n : ℝ) - 1)
  let i := Nat.floor h
  s.getD i 0 + (h - (i : ℝ)) * (s.getD (i + 1) (s.getD i 0) - s.getD i 0)

/-- Model of `Series.median`: middle of the sorted values, or the average
of the two middles for even length. -/
def seriesMedian (d : List ℝ) : ℝ :=
  medianOfSorted d.length (sortAsc d)

/-- Model of `Series.quantile` with linear interpolation. -/
def seriesQuantile (q : ℝ) (d : List ℝ) : ℝ :=
  quantileOfSorted q d.length (sortAsc d)

/-- A float-valued statistic that can be NaN. -/
inductive NpFloat
  | val (x : ℝ)
  | nan
  deriving DecidableEq

/-- Model of `Series.std` (sample standard deviation, `ddof=1`): NaN for a
single observation, else `sqrt(Σ(x-mean)² / (n-1))`. -/
def seriesStd (d : List ℝ) : NpFloat :=
  if d.length ≤ 1 then NpFloat.nan
  else NpFloat.val (Real.sqrt ((d.map (fun x => (x - seriesMean d) ^ 2)).sum / ((d.length : ℝ) - 1)))

/-- The per-column record built by `compute_basic_stats`. -/
structure ColStats where
  mean : ℝ
  median : ℝ
  std : NpFloat
  min : ℝ
  max : ℝ
  q25 : ℝ
  q75 : ℝ
  count : Nat
  missing : Nat

/-- The statistics record `compute_basic_stats` builds for one numeric
column: every statistic over the non-missing values, `missing` counted on
the original column. -/
def colStatsOf (v : List (Option ℝ)) : ColStats :=
  { mean := seriesMean (dropna v)
    median := seriesMedian (dropna v)
    std := seriesStd (dropna v)
    min := listMin (dropna v)
    max := listMax (dropna v)
    q25 := seriesQuantile (1 / 4) (dropna v)
    q75 := seriesQuantile (3 / 4) (dropna v)
    count := (dropna v).length
    missing := countMissing v }

/-- Embedding of `compute_basic_stats`
(`api/data_science/statlab/statistics.py`): for each numeric column, drop
missing values; skip the column silently when nothing remains; otherwise
record the statistics of that column. -/
def compute_basic_stats (df : DataFrame) : List (String × ColStats) :=
  (numericCols df).filterMap (fun c =>
    if (dropna c.2).length = 0 then none
    else some (c.1, colStatsOf c.2))

/-- Bin membership test of `np.histogram` with equal-width bins on
`[f, f + bins*w]`: bin `i` is `[f+i*w, f+(i+1)*w)`, except the last bin,
which is closed on the right. -/
def binPred (f w : ℝ) (bins i : Nat) (x : ℝ) : Bool :=
  if i = bins - 1 then decide (f + i * w ≤ x) && decide (x ≤ f + bins * w)
  else decide (f + i * w ≤ x) && decide (x < f + (i + 1) * w)

/-- Model of `np.histogram(d, bins)` for an integer `bins` on nonempty
data: raises `ValueError` when `bins < 1`; bins the data into `bins`
equal-width intervals spanning `[min, max]`, except that when
`min == max` NumPy widens the range to `[min - 0.5, max + 0.5]`; returns
the counts and the `bins+1` edges. -/
def np_histogram (d : List ℝ) (bins : Nat) : Except PyErr (List Nat × List ℝ) :=
  if bins < 1 then
    Except.error (PyErr.valueError ("bins must be positive, when an integer"))
  else
    let fe := listMin d
    let la := listMax d
    let f := if fe = la then fe - 1 / 2 else fe
    let l := if fe = la then la + 1 / 2 else la
    let w := (l - f) / bins
    Except.ok ((List.range bins).map (fun i => d.countP (binPred f w bins i)),
      linspace f l (bins + 1))

/-- Result record of `prepare_histogram_data`. -/
structure HistData where
  counts : List Nat
  bin_edges : List ℝ
  bin_centers : List ℝ

/-- Embedding of `prepare_histogram_data`
(`api/data_science/statlab/statistics.py`): `ValueError` when the column is
absent; drop missing values and `ValueError` when nothing remains (also the
path taken by an empty object column); `np.histogram` on an object column
is a `TypeError`; otherwise the counts, edges, and midpoints of adjacent
edges. -/
def prepare_histogram_data (df : DataFrame) (column : String) (bins : Nat) :
    Except PyErr HistData :=
  match df.cols.lookup column with
  | none => Except.error (PyErr.valueError ("Column not found in DataFrame"))
  | some (Column.object vals) =>
    if vals.length = 0 then Except.error (PyErr.valueError ("Column has no valid data"))
    else Except.error (PyErr.typeError ("unsupported operand type for histogram"))
  | some (Column.numeric v) =>
    let d := dropna v
    if d.length = 0 then Except.error (PyErr.valueError ("Column has no valid data"))
    else
      match np_histogram d bins with
      | Except.error e => Except.error e
      | Except.ok ce =>
        Except.ok ⟨ce.1, ce.2, (ce.2.zip ce.2.tail).map (fun p => (p.1 + p.2) / 2)⟩

/-- The pairwise-complete observations of two columns (pandas `nancorr`
keeps exactly the rows where both values are present). -/
def pairObs (v w : List (Option ℝ)) : List (ℝ × ℝ) :=
  (v.zip w).filterMap (fun p =>
    match p with
    | (some x, some y) => some (x, y)
    | _ => none)

/-- Model of one entry of pandas `DataFrame.corr()` (Pearson, via
`nancorr` with `min_periods=1`): over the pairwise-complete observations,
`Σ(x-mx)(y-my) / sqrt(Σ(x-mx)² * Σ(y-my)²)`, NaN when there is no
observation or the divisor is zero. -/
def nancorr (v w : List (Option ℝ)) : NpFloat :=
  let ps := pairObs v w
  if ps.length = 0 then NpFloat.nan
  else
    let mx := (ps.map Prod.fst).sum / ps.length
    let my := (ps.map Prod.snd).sum / ps.length
    let sxx := (ps.map (fun p => (p.1 - mx) ^ 2)).sum
    let syy := (ps.map (fun p => (p.2 - my) ^ 2)).sum
    let sxy := (ps.map (fun p => (p.1 - mx) * (p.2 - my))).sum
    let divisor := Real.sqrt (sxx * syy)
    if divisor = 0 then NpFloat.nan else NpFloat.val (sxy / divisor)

/-- Embedding of `compute_correlation`
(`api/data_science/statlab/statistics.py`): restrict to numeric columns and
return their names plus the full pairwise Pearson correlation matrix. -/
def compute_correlation (df : DataFrame) : List String × List (List NpFloat) :=
  let nc := numericCols df
  (nc.map Prod.fst, nc.map (fun ci => nc.map (fun cj => nancorr ci.2 cj.2)))

/-- C7: for every 2×2 matrix `[[a,b],[c,d]]`, `compute_determinant` returns
exactly `a*d - b*c`, and it fails (with the `ValueError` of the shape
guard) for every array whose shape is not 2×2. -/
theorem compute_determinant_spec (m : NpArr) :
    (m.shape ≠ [2, 2] →
      compute_determinant m = Except.error (PyErr.valueError ("Matrix must be 2x2"))) ∧
    (∀ a b c d : ℝ, m = npArray [[a, b], [c, d]] →
      compute_determinant m = Except.ok (a * d - b * c)) := by
  constructor
  · intro h
    simp [compute_determinant, h]
  · rintro a b c d rfl
    simp [compute_determinant, npArray, NpArr.toMat2, NpArr.entry]

/-- Witness for C7: the determinant of `[[1,2],[3,4]]` is `-2`, and a 2×3
array is rejected. -/
theorem compute_determinant_spec_witness :
    compute_determinant (npArray [[1, 2], [3, 4]]) = Except.ok (1 * 4 - 2 * 3) ∧
    compute_determinant (npArray [[1, 2, 3], [4, 5, 6]]) =
      Except.error (PyErr.valueError ("Matrix must be 2x2")) :=
  ⟨(compute_determinant_spec _).2 1 2 3 4 rfl,
   (compute_determinant_spec (npArray [[1, 2, 3], [4, 5, 6]])).1 (by simp [npArray])⟩

/-- C3: `transform_points` rejects (with `ValueError`) every matrix whose
shape is not 2×2; on a 2×2 matrix it returns one output point per input
point, in order, the `i`-th output being the matrix applied to the `i`-th
input (each output coordinate the dot product of a matrix row with the
point); and for the identity matrix it returns the input unchanged —
all of this including the empty point list. -/
theorem transform_points_spec (pts : List (ℝ × ℝ)) (m : NpArr) :
    (m.shape ≠ [2, 2] →
      transform_points pts m = Except.error (PyErr.valueError ("Matrix must be 2x2"))) ∧
    (m.shape = [2, 2] →
      ∃ out, transform_points pts m = Except.ok out ∧
        out.length = pts.length ∧
        ∀ i, i < pts.length →
          out.getD i (0, 0) =
            (m.toMat2.a * (pts.getD i (0, 0)).1 + m.toMat2.b * (pts.getD i (0, 0)).2,
             m.toMat2.c * (pts.getD i (0, 0)).1 + m.toMat2.d * (pts.getD i (0, 0)).2)) ∧
    (m = npArray [[1, 0], [0, 1]] → transform_points pts m = Except.ok pts) := by
  refine ⟨fun h => by simp [transform_points, h], fun h => ?_, fun h => ?_⟩
  · refine ⟨pts.map m.toMat2.apply, by simp [transform_points, h], by simp, ?_⟩
    intro i hi
    rw [List.getD_eq_getElem _ _ (by simpa using hi), List.getD_eq_getElem _ _ hi]
    simp [Mat2.apply]
  · subst h
    have hs : (npArray [[1, 0], [0, 1]]).shape = [2, 2] := rfl
    simp only [transform_points, hs, if_pos]
    have : (npArray [[(1 : ℝ), 0], [0, 1]]).toMat2.apply = fun p : ℝ × ℝ => p := by
      funext p
      simp [npArray, NpArr.toMat2, NpArr.entry, Mat2.apply]
    rw [this]
    simp

/-- Witness for C3: the identity matrix fixes a concrete point list, a 2×2
matrix transforms it pointwise, and a 1×2 matrix is rejected. -/
theorem transform_points_spec_witness :
    transform_points [(1, 2), (3, 4)] (npArray [[1, 0], [0, 1]]) =
      Except.ok [(1, 2), (3, 4)] ∧
    transform_points [(1, 2)] (npArray [[5, 6]]) =
      Except.error (PyErr.valueError ("Matrix must be 2x2")) :=
  ⟨(transform_points_spec [(1, 2), (3, 4)] _).2.2 rfl,
   (transform_points_spec [(1, 2)] (npArray [[5, 6]])).1 (by simp [npArray])⟩

/-- C2 (bug witness): posting `data = [[1, 2, 3]]` (a 1×3, hence 2-D but
not 2-column array) to the pca route does not produce an HTTP 400
response: the route body has no exception handling, so the `ValueError`
raised by `compute_pca` propagates out of the route unhandled (the
framework turns that into a plain server error, not a 4xx response). -/
theorem pca_route_uncaught_valueError :
    pcaRoute [[1, 2, 3]] =
      HttpResp.serverError (PyErr.valueError ("Data must be 2D (n, 2)")) ∧
    (npArray [[1, 2, 3]]).shape = [1, 3] := by
  constructor <;> rfl

/-- C10: `compute_pca` reads `data.shape[1]` before checking the number of
dimensions, so on every 1-D array the guard itself raises `IndexError`;
its `ValueError` is raised only for arrays that are already (at least)
2-dimensional with a second dimension different from 2; and the pca route
passes any `IndexError` straight through as an unhandled server error,
never as an HTTP 4xx response. -/
theorem compute_pca_shape_guard_spec :
    (∀ data : NpArr, data.shape.length = 1 →
      compute_pca data = Except.error (PyErr.indexError ("tuple index out of range"))) ∧
    (∀ (data : NpArr) (msg : String),
      compute_pca data = Except.error (PyErr.valueError msg) →
      2 ≤ data.shape.length ∧ data.shape.getD 1 0 ≠ 2) ∧
    (∀ (reqData : List (List ℝ)) (msg : String),
      compute_pca (npArray reqData) = Except.error (PyErr.indexError msg) →
      pcaRoute reqData = HttpResp.serverError (PyErr.indexError msg)) := by
  refine ⟨?_, ?_, ?_⟩
  · intro data h
    have hlt : ¬ 1 < data.shape.length := by omega
    simp [compute_pca, tupleGet, hlt]
  · intro data msg herr
    by_cases hlt : 1 < data.shape.length
    · simp only [compute_pca, tupleGet, dif_pos hlt] at herr
      by_cases h2 : data.shape.get ⟨1, hlt⟩ = 2
      · rw [List.get_eq_getElem] at h2
        simp [h2] at herr
      · refine ⟨by omega, ?_⟩
        rw [List.getD_eq_getElem _ _ hlt]
        rw [List.get_eq_getElem] at h2
        simpa using h2
    · simp [compute_pca, tupleGet, hlt] at herr
  · intro reqData msg herr
    simp [pcaRoute, herr]

/-- Witness for C10: `np.array([])` has the 1-D shape `(0,)`; on it
`compute_pca` raises `IndexError`, and the route reports a server error. -/
theorem compute_pca_shape_guard_spec_witness :
    compute_pca (npArray []) =
      Except.error (PyErr.indexError ("tuple index out of range")) ∧
    pcaRoute [] =
      HttpResp.serverError (PyErr.indexError ("tuple index out of range")) := by
  have h1 := compute_pca_shape_guard_spec.1 (npArray []) rfl
  exact ⟨h1, compute_pca_shape_guard_spec.2.2 [] _ h1⟩

/-- A nonzero real 2-D vector divided by its Euclidean norm has norm 1. -/
theorem norm2_vecDiv_self (v : ℝ × ℝ) (hv : v ≠ (0, 0)) :
    norm2 (vecDiv v (norm2 v)) = 1 := by
  have hne : v.1 ≠ 0 ∨ v.2 ≠ 0 := by
    by_contra h
    push_neg at h
    exact hv (Prod.ext h.1 h.2)
  have hS : 0 < v.1 ^ 2 + v.2 ^ 2 := by
    rcases hne with h | h
    · nlinarith [mul_self_pos.mpr h, sq_nonneg v.2]
    · nlinarith [mul_self_pos.mpr h, sq_nonneg v.1]
  have hNpos : 0 < norm2 v := Real.sqrt_pos.mpr hS
  have hN2 : norm2 v ^ 2 = v.1 ^ 2 + v.2 ^ 2 := Real.sq_sqrt hS.le
  have hfrac : (v.1 / norm2 v) ^ 2 + (v.2 / norm2 v) ^ 2 = 1 := by
    field_simp
    linarith [hN2]
  simp only [norm2, vecDiv] at hfrac ⊢
  rw [hfrac, Real.sqrt_one]

/-- Scaling an eigenvector preserves the eigen-equation (componentwise),
for every scalar including zero. -/
theorem apply_vecDiv (m : Mat2) (v : ℝ × ℝ) (l n : ℝ)
    (h : m.apply v = (l * v.1, l * v.2)) :
    m.apply (vecDiv v n) = (l * (vecDiv v n).1, l * (vecDiv v n).2) := by
  have h1 : m.a * v.1 + m.b * v.2 = l * v.1 := congrArg Prod.fst h
  have h2 : m.c * v.1 + m.d * v.2 = l * v.2 := congrArg Prod.snd h
  simp only [Mat2.apply, vecDiv, Prod.ext_iff]
  constructor
  · rw [mul_div_assoc', mul_div_assoc', mul_div_assoc', div_add_div_same, h1]
  · rw [mul_div_assoc', mul_div_assoc', mul_div_assoc', div_add_div_same, h2]

/-- The symmetric 2×2 eigendecomposition model: the two eigenvalues come
out in descending order and sum to the trace, and each returned vector is
nonzero and satisfies the eigen-equation of its eigenvalue. -/
theorem eigSym_spec (a b d : ℝ) :
    (eigSym ⟨a, b, b, d⟩).1.2 ≤ (eigSym ⟨a, b, b, d⟩).1.1 ∧
    (eigSym ⟨a, b, b, d⟩).1.1 + (eigSym ⟨a, b, b, d⟩).1.2 = a + d ∧
    Mat2.apply ⟨a, b, b, d⟩ (eigSym ⟨a, b, b, d⟩).2.1 =
      ((eigSym ⟨a, b, b, d⟩).1.1 * (eigSym ⟨a, b, b, d⟩).2.1.1,
       (eigSym ⟨a, b, b, d⟩).1.1 * (eigSym ⟨a, b, b, d⟩).2.1.2) ∧
    Mat2.apply ⟨a, b, b, d⟩ (eigSym ⟨a, b, b, d⟩).2.2 =
      ((eigSym ⟨a, b, b, d⟩).1.2 * (eigSym ⟨a, b, b, d⟩).2.2.1,
       (eigSym ⟨a, b, b, d⟩).1.2 * (eigSym ⟨a, b, b, d⟩).2.2.2) ∧
    (eigSym ⟨a, b, b, d⟩).2.1 ≠ (0, 0) ∧ (eigSym ⟨a, b, b, d⟩).2.2 ≠ (0, 0) := by
  have hdisc : (0 : ℝ) ≤ (a - d) ^ 2 + 4 * b ^ 2 := by positivity
  have hs2 : Real.sqrt ((a - d) ^ 2 + 4 * b ^ 2) ^ 2 = (a - d) ^ 2 + 4 * b ^ 2 :=
    Real.sq_sqrt hdisc
  have hs0 : 0 ≤ Real.sqrt ((a - d) ^ 2 + 4 * b ^ 2) := Real.sqrt_nonneg _
  by_cases hb : b = 0
  · subst hb
    have habs : Real.sqrt ((a - d) ^ 2 + 4 * (0 : ℝ) ^ 2) = |a - d| := by
      rw [show (a - d) ^ 2 + 4 * (0 : ℝ) ^ 2 = (a - d) ^ 2 by ring, Real.sqrt_sq_eq_abs]
    by_cases hda : d ≤ a
    · have he : eigSym ⟨a, 0, 0, d⟩ = ((a, d), ((1, 0), (0, 1))) := by
        have h1 : |a - d| = a - d := abs_of_nonneg (by linarith)
        simp only [eigSym, habs, h1, hda]
        norm_num
      rw [he]
      refine ⟨hda, rfl, ?_, ?_, by simp, by simp⟩
      · simp only [Mat2.apply]
        norm_num
      · simp only [Mat2.apply]
        norm_num
    · have he : eigSym ⟨a, 0, 0, d⟩ = ((d, a), ((0, 1), (1, 0))) := by
        have h1 : |a - d| = d - a := by
          rw [abs_of_nonpos (by linarith)]
          ring
        simp only [eigSym, habs, h1, hda]
        norm_num
        constructor <;> ring
      rw [he]
      refine ⟨by linarith, by ring, ?_, ?_, by simp, by simp⟩
      · simp only [Mat2.apply]
        norm_num
      · simp only [Mat2.apply]
        norm_num
  · have he : eigSym ⟨a, b, b, d⟩ =
        (((a + d + Real.sqrt ((a - d) ^ 2 + 4 * b ^ 2)) / 2,
          (a + d - Real.sqrt ((a - d) ^ 2 + 4 * b ^ 2)) / 2),
         ((b, (a + d + Real.sqrt ((a - d) ^ 2 + 4 * b ^ 2)) / 2 - a),
          (b, (a + d - Real.sqrt ((a - d) ^ 2 + 4 * b ^ 2)) / 2 - a))) := by
      simp [eigSym, hb]
    rw [he]
    refine ⟨by linarith, by ring, ?_, ?_, ?_, ?_⟩
    · simp only [Mat2.apply, Prod.ext_iff]
      constructor
      · ring
      · linear_combination (-1 / 4 : ℝ) * hs2
    · simp only [Mat2.apply, Prod.ext_iff]
      constructor
      · ring
      · linear_combination (-1 / 4 : ℝ) * hs2
    · simp [Prod.ext_iff, hb]
    · simp [Prod.ext_iff, hb]

/-- `np.array` keeps the row data unchanged. -/
theorem npArray_rows (rows : List (List ℝ)) : (npArray rows).rows = rows := by
  cases rows with
  | nil => rfl
  | cons r rs =>
    simp only [npArray]
    split <;> rfl

/-- The array built from an `(n, 2)` point payload has shape `(n, 2)`. -/
theorem npArray_toRow_shape (data : List (ℝ × ℝ)) (h : data ≠ []) :
    (npArray (data.map toRow)).shape = [data.length, 2] := by
  cases data with
  | nil => exact absurd rfl h
  | cons p ps =>
    have hall : ((List.map toRow ps).all fun row => decide (row.length = 2)) = true := by
      rw [List.all_eq_true]
      intro row hrow
      rw [List.mem_map] at hrow
      obtain ⟨q, _, rfl⟩ := hrow
      simp [toRow]
    simp [npArray, toRow, hall]

/-- Reading the points back from their row payload is the identity. -/
theorem toPairs_toRow (data : List (ℝ × ℝ)) : toPairs (data.map toRow) = data := by
  induction data with
  | nil => rfl
  | cons p ps ih => simpa [toPairs, toRow] using ih

/-- C1: on every `n×2` dataset with `n ≥ 2` and nonzero total variance,
`compute_pca` succeeds and returns: the column-wise mean; unit-norm
principal components that are eigenvectors of the covariance matrix of the
centered data, paired with eigenvalues sorted in descending order;
`explained_variance` entries equal to each sorted eigenvalue divided by the
eigenvalue sum, summing to 1; and `projected_data` equal to the centered
data multiplied by the sorted eigenvector matrix. -/
theorem compute_pca_spec (data : List (ℝ × ℝ)) (h2 : 2 ≤ data.length)
    (hv : totalVariance data ≠ 0) :
    ∃ r : PCAResult,
      compute_pca (npArray (data.map toRow)) = Except.ok r ∧
      r.mean = colMean data ∧
      norm2 r.pc1 = 1 ∧ norm2 r.pc2 = 1 ∧
      (∃ l1 l2 : ℝ, l2 ≤ l1 ∧ l1 + l2 = totalVariance data ∧
        (pcaCov data).apply r.pc1 = (l1 * r.pc1.1, l1 * r.pc1.2) ∧
        (pcaCov data).apply r.pc2 = (l2 * r.pc2.1, l2 * r.pc2.2) ∧
        r.ev1 = l1 / (l1 + l2) ∧ r.ev2 = l2 / (l1 + l2)) ∧
      r.ev1 + r.ev2 = 1 ∧
      r.projected_data =
        (center data).map
          (fun p => (p.1 * r.pc1.1 + p.2 * r.pc1.2, p.1 * r.pc2.1 + p.2 * r.pc2.2)) := by
  have hne : data ≠ [] := by
    intro h
    rw [h] at h2
    simp at h2
  have hok : compute_pca (npArray (data.map toRow)) = Except.ok (pcaCore data) := by
    rw [compute_pca.eq_def, npArray_toRow_shape data hne]
    simp [tupleGet, npArray_rows, toPairs_toRow]
  have heta : (⟨(pcaCov data).a, (pcaCov data).b, (pcaCov data).b, (pcaCov data).d⟩ : Mat2) =
      pcaCov data := rfl
  have hspec := eigSym_spec (pcaCov data).a (pcaCov data).b (pcaCov data).d
  rw [heta] at hspec
  obtain ⟨hle, htr, heq1, heq2, hnz1, hnz2⟩ := hspec
  have htot : (eigSym (pcaCov data)).1.1 + (eigSym (pcaCov data)).1.2 = totalVariance data := htr
  by_cases hcmp : (eigSym (pcaCov data)).1.1 ≤ (eigSym (pcaCov data)).1.2
  · refine ⟨pcaCore data, hok, ?_, ?_, ?_, ?_, ?_, ?_⟩
    · simp only [pcaCore]
    · simp only [pcaCore, if_pos hcmp]
      exact norm2_vecDiv_self _ hnz2
    · simp only [pcaCore, if_pos hcmp]
      exact norm2_vecDiv_self _ hnz1
    · refine ⟨(eigSym (pcaCov data)).1.2, (eigSym (pcaCov data)).1.1, hcmp, by linarith, ?_, ?_, ?_, ?_⟩
      · simp only [pcaCore, if_pos hcmp]
        exact apply_vecDiv _ _ _ _ heq2
      · simp only [pcaCore, if_pos hcmp]
        exact apply_vecDiv _ _ _ _ heq1
      · simp only [pcaCore, if_pos hcmp]
      · simp only [pcaCore, if_pos hcmp]
    · have hsum : (eigSym (pcaCov data)).1.2 + (eigSym (pcaCov data)).1.1 ≠ 0 := by
        intro h
        exact hv (by linarith)
      simp only [pcaCore, if_pos hcmp]
      rw [div_add_div_same, div_self hsum]
    · simp only [pcaCore, if_pos hcmp]
  · refine ⟨pcaCore data, hok, ?_, ?_, ?_, ?_, ?_, ?_⟩
    · simp only [pcaCore]
    · simp only [pcaCore, if_neg hcmp]
      exact norm2_vecDiv_self _ hnz1
    · simp only [pcaCore, if_neg hcmp]
      exact norm2_vecDiv_self _ hnz2
    · refine ⟨(eigSym (pcaCov data)).1.1, (eigSym (pcaCov data)).1.2, hle, htot, ?_, ?_, ?_, ?_⟩
      · simp only [pcaCore, if_neg hcmp]
        exact apply_vecDiv _ _ _ _ heq1
      · simp only [pcaCore, if_neg hcmp]
        exact apply_vecDiv _ _ _ _ heq2
      · simp only [pcaCore, if_neg hcmp]
      · simp only [pcaCore, if_neg hcmp]
    · have hsum : (eigSym (pcaCov data)).1.1 + (eigSym (pcaCov data)).1.2 ≠ 0 := by
        intro h
        exact hv (by linarith)
      simp only [pcaCore, if_neg hcmp]
      rw [div_add_div_same, div_self hsum]
    · simp only [pcaCore, if_neg hcmp]


/-- Witness for C1: the dataset `[(1,0), (-1,0)]` has 2 rows and total
variance 2, and `compute_pca` succeeds on it. -/
theorem compute_pca_spec_witness :
    2 ≤ ([((1 : ℝ), (0 : ℝ)), (-1, 0)]).length ∧
    totalVariance [((1 : ℝ), (0 : ℝ)), (-1, 0)] ≠ 0 ∧
    ∃ r : PCAResult,
      compute_pca (npArray ([((1 : ℝ), (0 : ℝ)), (-1, 0)].map toRow)) = Except.ok r := by
  have h2 : 2 ≤ ([((1 : ℝ), (0 : ℝ)), (-1, 0)]).length := by norm_num
  have hv : totalVariance [((1 : ℝ), (0 : ℝ)), (-1, 0)] ≠ 0 := by
    norm_num [totalVariance, pcaCov, covMat, center, colMean]
  obtain ⟨r, hok, -⟩ := compute_pca_spec [((1 : ℝ), (0 : ℝ)), (-1, 0)] h2 hv
  exact ⟨h2, hv, r, hok⟩


/-- A nonzero complex 2-D vector divided by its Euclidean norm has norm 1. -/
theorem norm2C_vecDivC_self (v : ℂ × ℂ) (hv : v ≠ (0, 0)) :
    norm2C (vecDivC v (norm2C v)) = 1 := by
  have hne : v.1 ≠ 0 ∨ v.2 ≠ 0 := by
    by_contra h
    push_neg at h
    exact hv (Prod.ext h.1 h.2)
  have hS : 0 < Complex.normSq v.1 + Complex.normSq v.2 := by
    rcases hne with h | h
    · have := Complex.normSq_pos.mpr h
      have := Complex.normSq_nonneg v.2
      linarith
    · have := Complex.normSq_pos.mpr h
      have := Complex.normSq_nonneg v.1
      linarith
  have hNpos : 0 < norm2C v := Real.sqrt_pos.mpr hS
  have hN2 : norm2C v ^ 2 = Complex.normSq v.1 + Complex.normSq v.2 := Real.sq_sqrt hS.le
  have hNsq : Complex.normSq ((norm2C v : ℝ) : ℂ) = norm2C v ^ 2 := by
    rw [Complex.normSq_ofReal]
    ring
  have hfrac : Complex.normSq (v.1 / ((norm2C v : ℝ) : ℂ)) +
      Complex.normSq (v.2 / ((norm2C v : ℝ) : ℂ)) = 1 := by
    rw [Complex.normSq_div, Complex.normSq_div, hNsq, div_add_div_same, hN2,
      div_self hS.ne.symm]
  simp only [norm2C, vecDivC] at hfrac ⊢
  rw [hfrac, Real.sqrt_one]

/-- Both eigenvector columns of the general 2×2 eigendecomposition model
are nonzero, whatever the matrix. -/
theorem eigGen_vecs_ne_zero (mm : Mat2) :
    (eigGen mm).2.1 ≠ (0, 0) ∧ (eigGen mm).2.2 ≠ (0, 0) := by
  by_cases hb : mm.b ≠ 0
  · simp only [eigGen, if_pos hb]
    constructor <;> simp [Prod.ext_iff, Complex.ofReal_eq_zero, hb]
  · by_cases hc : mm.c ≠ 0
    · simp only [eigGen, if_neg hb, if_pos hc]
      constructor <;> simp [Prod.ext_iff, Complex.ofReal_eq_zero, hc]
    · by_cases hda : mm.d ≤ mm.a
      · simp only [eigGen, if_neg hb, if_neg hc, if_pos hda]
        constructor <;> simp [Prod.ext_iff]
      · simp only [eigGen, if_neg hb, if_neg hc, if_neg hda]
        constructor <;> simp [Prod.ext_iff]

/-- The matrix stored in a 2×2 array payload. -/
theorem toMat2_npArray (a b c d : ℝ) :
    (npArray [[a, b], [c, d]]).toMat2 = ⟨a, b, c, d⟩ := by
  simp [npArray, NpArr.toMat2, NpArr.entry]


/-- C8: `compute_eigen` rejects every non-2×2 array; on every real 2×2
matrix both returned eigenvector columns have unit Euclidean norm; on the
identity it returns eigenvalues `(1, 1)`; and on `diag(2, 3)` the returned
eigenvalue pair, as a set, is `{2, 3}` (the model lists the `+√disc` root
first, so the pair itself is `(3, 2)`; the code does not sort it). -/
theorem compute_eigen_spec (m : NpArr) :
    (m.shape ≠ [2, 2] →
      compute_eigen m = Except.error (PyErr.valueError ("Matrix must be 2x2"))) ∧
    (∀ a b c d : ℝ, m = npArray [[a, b], [c, d]] →
      ∃ ev v1 v2, compute_eigen m = Except.ok (ev, (v1, v2)) ∧
        norm2C v1 = 1 ∧ norm2C v2 = 1) ∧
    (m = npArray [[1, 0], [0, 1]] →
      ∃ vecs, compute_eigen m = Except.ok ((1, 1), vecs)) ∧
    (m = npArray [[2, 0], [0, 3]] →
      ∃ vecs, compute_eigen m = Except.ok ((3, 2), vecs) ∧
        ({(3 : ℂ), (2 : ℂ)} : Multiset ℂ) = {2, 3}) := by
  refine ⟨fun h => by simp [compute_eigen, h], ?_, ?_, ?_⟩
  · rintro a b c d rfl
    have hshape : (npArray [[a, b], [c, d]]).shape = [2, 2] := by simp [npArray]
    refine ⟨(eigGen ⟨a, b, c, d⟩).1,
      vecDivC (eigGen ⟨a, b, c, d⟩).2.1 (norm2C (eigGen ⟨a, b, c, d⟩).2.1),
      vecDivC (eigGen ⟨a, b, c, d⟩).2.2 (norm2C (eigGen ⟨a, b, c, d⟩).2.2), ?_, ?_, ?_⟩
    · simp [compute_eigen, hshape, toMat2_npArray]
    · exact norm2C_vecDivC_self _ (eigGen_vecs_ne_zero ⟨a, b, c, d⟩).1
    · exact norm2C_vecDivC_self _ (eigGen_vecs_ne_zero ⟨a, b, c, d⟩).2
  · rintro rfl
    have hshape : (npArray [[(1 : ℝ), 0], [0, 1]]).shape = [2, 2] := rfl
    refine ⟨(vecDivC (eigGen ⟨(1 : ℝ), 0, 0, 1⟩).2.1 (norm2C (eigGen ⟨(1 : ℝ), 0, 0, 1⟩).2.1),
      vecDivC (eigGen ⟨(1 : ℝ), 0, 0, 1⟩).2.2 (norm2C (eigGen ⟨(1 : ℝ), 0, 0, 1⟩).2.2)), ?_⟩
    have he : (eigGen ⟨(1 : ℝ), 0, 0, 1⟩).1 = (1, 1) := by
      simp only [eigGen]
      norm_num [Real.sqrt_zero]
    simp [compute_eigen, hshape, toMat2_npArray, he]
  · rintro rfl
    have hshape : (npArray [[(2 : ℝ), 0], [0, 3]]).shape = [2, 2] := rfl
    refine ⟨(vecDivC (eigGen ⟨(2 : ℝ), 0, 0, 3⟩).2.1 (norm2C (eigGen ⟨(2 : ℝ), 0, 0, 3⟩).2.1),
      vecDivC (eigGen ⟨(2 : ℝ), 0, 0, 3⟩).2.2 (norm2C (eigGen ⟨(2 : ℝ), 0, 0, 3⟩).2.2)), ?_, ?_⟩
    · have he : (eigGen ⟨(2 : ℝ), 0, 0, 3⟩).1 = (3, 2) := by
        simp only [eigGen]
        norm_num [show ((2 : ℝ) + 3) ^ 2 - 4 * (2 * 3 - 0 * 0) = 1 by norm_num,
          Real.sqrt_one]
      simp [compute_eigen, hshape, toMat2_npArray, he]
    · rw [Multiset.pair_comm]

/-- Witness for C8: eigendecomposition of `[[0, -1], [1, 0]]` (a rotation,
whose eigenvalues are genuinely complex) yields unit-norm eigenvectors,
and a 1×2 array is rejected. -/
theorem compute_eigen_spec_witness :
    (∃ ev v1 v2,
      compute_eigen (npArray [[0, -1], [1, 0]]) = Except.ok (ev, (v1, v2)) ∧
        norm2C v1 = 1 ∧ norm2C v2 = 1) ∧
    compute_eigen (npArray [[7, 8]]) =
      Except.error (PyErr.valueError ("Matrix must be 2x2")) :=
  ⟨(compute_eigen_spec (npArray [[0, -1], [1, 0]])).2.1 0 (-1) 1 0 rfl,
   (compute_eigen_spec (npArray [[7, 8]])).1 (by simp [npArray])⟩


/-- `linspace` produces exactly `num` values. -/
theorem linspace_length (s t : ℝ) (num : Nat) : (linspace s t num).length = num := by
  match num with
  | 0 => rfl
  | 1 => rfl
  | Nat.succ (Nat.succ k) => simp [linspace]

/-- Every `linspace` value lies between the two endpoints. -/
theorem linspace_mem_bounds (s t : ℝ) (num : Nat) (hst : s ≤ t) :
    ∀ x ∈ linspace s t num, s ≤ x ∧ x ≤ t := by
  intro x hx
  match num with
  | 0 => simp [linspace] at hx
  | 1 =>
    simp only [linspace, List.mem_singleton] at hx
    rw [hx]
    exact ⟨le_refl s, hst⟩
  | Nat.succ (Nat.succ k) =>
    simp only [linspace, List.mem_map, List.mem_range] at hx
    obtain ⟨i, hi, rfl⟩ := hx
    have hcast : ((k + 2 : Nat) : ℝ) - 1 = (k : ℝ) + 1 := by
      push_cast
      ring
    rw [hcast]
    have hkpos : (0 : ℝ) < (k : ℝ) + 1 := by positivity
    have hstep : 0 ≤ (t - s) / ((k : ℝ) + 1) := div_nonneg (by linarith) hkpos.le
    have hi1 : (i : ℝ) ≤ (k : ℝ) + 1 := by
      have : i ≤ k + 1 := Nat.lt_succ_iff.mp hi
      exact_mod_cast this
    have hID : ((k : ℝ) + 1) * ((t - s) / ((k : ℝ) + 1)) = t - s := by
      field_simp
    constructor
    · nlinarith [mul_nonneg (Nat.cast_nonneg i) hstep]
    · nlinarith [mul_le_mul_of_nonneg_right hi1 hstep]

/-- For distinct endpoints the `linspace` values are pairwise distinct. -/
theorem linspace_nodup (s t : ℝ) (num : Nat) (hst : s < t) :
    (linspace s t num).Nodup := by
  match num with
  | 0 => simp [linspace]
  | 1 => simp [linspace]
  | Nat.succ (Nat.succ k) =>
    rw [linspace]
    apply List.Nodup.map _ (List.nodup_range _)
    intro i j hij
    have hcast : ((k + 2 : Nat) : ℝ) - 1 = (k : ℝ) + 1 := by
      push_cast
      ring
    rw [hcast] at hij
    have hkpos : (0 : ℝ) < (k : ℝ) + 1 := by positivity
    have hstep : 0 < (t - s) / ((k : ℝ) + 1) := div_pos (by linarith) hkpos
    have : (i : ℝ) = (j : ℝ) := by
      have h := hij
      have h2 : (i : ℝ) * ((t - s) / ((k : ℝ) + 1)) = (j : ℝ) * ((t - s) / ((k : ℝ) + 1)) := by
        linarith
      exact mul_right_cancel₀ hstep.ne.symm h2
    exact_mod_cast this

/-- Index arithmetic of the grid traversals: element `i*|xs| + j` of a
loop nest that iterates `ys` outside and `xs` inside. -/
theorem flatMap_map_getElem? {α β γ : Type} (ys : List β) (xs : List α) (f : α → β → γ)
    (i j : Nat) (hi : i < ys.length) (hj : j < xs.length) :
    (ys.flatMap (fun y => xs.map (fun x => f x y)))[i * xs.length + j]? =
      some (f (xs.get ⟨j, hj⟩) (ys.get ⟨i, hi⟩)) := by
  induction ys generalizing i with
  | nil => simp at hi
  | cons y t ih =>
    cases i with
    | zero =>
      have hlt : 0 * xs.length + j < (xs.map (fun x => f x y)).length := by
        simpa using hj
      rw [List.flatMap_cons, List.getElem?_append_left hlt]
      simp only [Nat.zero_mul, Nat.zero_add, List.getElem?_map,
        List.getElem?_eq_getElem hj, Option.map_some]
      simp [List.get_eq_getElem]
    | succ i =>
      have hidx : Nat.succ i * xs.length + j = xs.length + (i * xs.length + j) := by
        rw [Nat.succ_mul]
        ring
      have hi2 : i < t.length := by
        simpa [Nat.succ_lt_succ_iff] using hi
      rw [List.flatMap_cons, hidx,
        List.getElem?_append_right (by simp [Nat.le_add_right])]
      simp only [List.length_map, Nat.add_sub_cancel_left]
      exact ih i hi2

/-- The horizontal-traversal block of the grid has no duplicate points
when both coordinate lists are duplicate-free. -/
theorem nodup_grid_h (ys xs : List ℝ) (hys : ys.Nodup) (hxs : xs.Nodup) :
    (ys.flatMap (fun y => xs.map (fun x => (x, y)))).Nodup := by
  induction ys with
  | nil => simp
  | cons y t ih =>
    rw [List.flatMap_cons]
    have hyt := List.nodup_cons.mp hys
    apply List.Nodup.append
    · exact hxs.map (fun a b hab => congrArg Prod.fst hab)
    · exact ih hyt.2
    · intro p hp1 hp2
      rw [List.mem_map] at hp1
      obtain ⟨x, _, rfl⟩ := hp1
      rw [List.mem_flatMap] at hp2
      obtain ⟨y2, hy2, hp2⟩ := hp2
      rw [List.mem_map] at hp2
      obtain ⟨x2, _, heq⟩ := hp2
      have : y2 = y := congrArg Prod.snd heq
      subst this
      exact hyt.1 hy2

/-- The vertical-traversal block of the grid has no duplicate points
when both coordinate lists are duplicate-free. -/
theorem nodup_grid_v (xs ys : List ℝ) (hxs : xs.Nodup) (hys : ys.Nodup) :
    (xs.flatMap (fun x => ys.map (fun y => (x, y)))).Nodup := by
  induction xs with
  | nil => simp
  | cons x t ih =>
    rw [List.flatMap_cons]
    have hxt := List.nodup_cons.mp hxs
    apply List.Nodup.append
    · exact hys.map (fun a b hab => congrArg Prod.snd hab)
    · exact ih hxt.2
    · intro p hp1 hp2
      rw [List.mem_map] at hp1
      obtain ⟨y, _, rfl⟩ := hp1
      rw [List.mem_flatMap] at hp2
      obtain ⟨x2, hx2, hp2⟩ := hp2
      rw [List.mem_map] at hp2
      obtain ⟨y2, _, heq⟩ := hp2
      have : x2 = x := congrArg Prod.fst heq
      subst this
      exact hxt.1 hx2


/-- The horizontal block of the grid has `|ys| * |xs|` points. -/
theorem grid_block_length (xs ys : List ℝ) :
    (ys.flatMap (fun yi => xs.map (fun xi => (xi, yi)))).length = ys.length * xs.length := by
  induction ys with
  | nil => simp
  | cons y t ih =>
    rw [List.flatMap_cons, List.length_append, ih, List.length_map, List.length_cons]
    ring

/-- The vertical block of the grid has `|xs| * |ys|` points. -/
theorem grid_block_length_v (xs ys : List ℝ) :
    (xs.flatMap (fun xi => ys.map (fun yi => (xi, yi)))).length = xs.length * ys.length := by
  induction xs with
  | nil => simp
  | cons x t ih =>
    rw [List.flatMap_cons, List.length_append, ih, List.length_map, List.length_cons]
    ring

/-- Membership in the horizontal block. -/
theorem grid_block_mem (xs ys : List ℝ) (x y : ℝ) (hx : x ∈ xs) (hy : y ∈ ys) :
    (x, y) ∈ ys.flatMap (fun yi => xs.map (fun xi => (xi, yi))) := by
  rw [List.mem_flatMap]
  exact ⟨y, hy, List.mem_map.mpr ⟨x, hx, rfl⟩⟩

/-- Membership in the vertical block. -/
theorem grid_block_mem_v (xs ys : List ℝ) (x y : ℝ) (hx : x ∈ xs) (hy : y ∈ ys) :
    (x, y) ∈ xs.flatMap (fun xi => ys.map (fun yi => (xi, yi))) := by
  rw [List.mem_flatMap]
  exact ⟨x, hx, List.mem_map.mpr ⟨y, hy, rfl⟩⟩

/-- In a duplicate-free list, a member occurs exactly once. -/
theorem count_eq_one_of_mem_beq {α : Type} [BEq α] [LawfulBEq α] {a : α} {l : List α}
    (d : l.Nodup) (h : a ∈ l) : l.count a = 1 := by
  induction l with
  | nil => simp at h
  | cons x t ih =>
    rw [List.count_cons]
    rcases List.mem_cons.mp h with rfl | hmem
    · have hnx : a ∉ t := (List.nodup_cons.mp d).1
      rw [List.count_eq_zero.mpr hnx]
      simp
    · have hne : x ≠ a := by
        rintro rfl
        exact (List.nodup_cons.mp d).1 hmem
      rw [ih (List.nodup_cons.mp d).2 hmem]
      simp [hne]

/-- C4: for `size ≥ 1` and `range_val > 0`, `generate_grid` returns exactly
`2*size*size` points, every coordinate lying in `[-range_val, range_val]`;
the first `size*size` entries are the raster over
`linspace(-range_val, range_val, size)` traversed with x varying fastest
within each fixed y, the next `size*size` entries the same raster with y
varying within each fixed x; and every raster point occurs exactly twice
in the whole output. -/
theorem generate_grid_spec (size : Nat) (r : ℝ) (_hs : 1 ≤ size) (hr : 0 < r) :
    (generate_grid size r).length = 2 * size * size ∧
    (∀ p ∈ generate_grid size r, -r ≤ p.1 ∧ p.1 ≤ r ∧ -r ≤ p.2 ∧ p.2 ≤ r) ∧
    (∀ i j, i < size → j < size →
      (generate_grid size r)[i * size + j]? =
        some ((linspace (-r) r size).getD j 0, (linspace (-r) r size).getD i 0) ∧
      (generate_grid size r)[size * size + (j * size + i)]? =
        some ((linspace (-r) r size).getD j 0, (linspace (-r) r size).getD i 0)) ∧
    (∀ i j, i < size → j < size →
      (generate_grid size r).count
        ((linspace (-r) r size).getD j 0, (linspace (-r) r size).getD i 0) = 2) := by
  have hlen : (linspace (-r) r size).length = size := linspace_length _ _ _
  have hblt : -r < r := by linarith
  have hnd : (linspace (-r) r size).Nodup := linspace_nodup _ _ _ hblt
  have hgrid : generate_grid size r =
      ((linspace (-r) r size).flatMap
        (fun yi => (linspace (-r) r size).map (fun xi => (xi, yi)))) ++
      ((linspace (-r) r size).flatMap
        (fun xi => (linspace (-r) r size).map (fun yi => (xi, yi)))) := rfl
  have hb1len : ((linspace (-r) r size).flatMap
      (fun yi => (linspace (-r) r size).map (fun xi => (xi, yi)))).length = size * size := by
    rw [grid_block_length, hlen]
  have hb2len : ((linspace (-r) r size).flatMap
      (fun xi => (linspace (-r) r size).map (fun yi => (xi, yi)))).length = size * size := by
    rw [grid_block_length_v, hlen]
  refine ⟨?_, ?_, ?_, ?_⟩
  · rw [hgrid, List.length_append, hb1len, hb2len]
    ring
  · intro p hp
    rw [hgrid, List.mem_append] at hp
    have hbound : ∀ x ∈ linspace (-r) r size, -r ≤ x ∧ x ≤ r :=
      linspace_mem_bounds (-r) r size (by linarith)
    rcases hp with hp | hp
    · rw [List.mem_flatMap] at hp
      obtain ⟨y, hy, hp⟩ := hp
      rw [List.mem_map] at hp
      obtain ⟨x, hx, rfl⟩ := hp
      exact ⟨(hbound x hx).1, (hbound x hx).2, (hbound y hy).1, (hbound y hy).2⟩
    · rw [List.mem_flatMap] at hp
      obtain ⟨x, hx, hp⟩ := hp
      rw [List.mem_map] at hp
      obtain ⟨y, hy, rfl⟩ := hp
      exact ⟨(hbound x hx).1, (hbound x hx).2, (hbound y hy).1, (hbound y hy).2⟩
  · intro i j hi hj
    have hi2 : i < (linspace (-r) r size).length := by rw [hlen]; exact hi
    have hj2 : j < (linspace (-r) r size).length := by rw [hlen]; exact hj
    constructor
    · have hidx : i * size + j < ((linspace (-r) r size).flatMap
          (fun yi => (linspace (-r) r size).map (fun xi => (xi, yi)))).length := by
        rw [hb1len]
        calc i * size + j < i * size + size := by omega
        _ = (i + 1) * size := by ring
        _ ≤ size * size := Nat.mul_le_mul_right _ (by omega)
      rw [hgrid, List.getElem?_append_left hidx,
        show i * size + j = i * (linspace (-r) r size).length + j by rw [hlen],
        List.getD_eq_getElem _ 0 hj2, List.getD_eq_getElem _ 0 hi2]
      have h := flatMap_map_getElem? (linspace (-r) r size) (linspace (-r) r size)
        (fun x y => (x, y)) i j hi2 hj2
      simpa using h
    · have hge : ((linspace (-r) r size).flatMap
          (fun yi => (linspace (-r) r size).map (fun xi => (xi, yi)))).length ≤
          size * size + (j * size + i) := by
        rw [hb1len]
        omega
      rw [hgrid, List.getElem?_append_right hge, hb1len, Nat.add_sub_cancel_left,
        show j * size + i = j * (linspace (-r) r size).length + i by rw [hlen],
        List.getD_eq_getElem _ 0 hj2, List.getD_eq_getElem _ 0 hi2]
      have h := flatMap_map_getElem? (linspace (-r) r size) (linspace (-r) r size)
        (fun y x => (x, y)) j i hj2 hi2
      simpa using h
  · intro i j hi hj
    have hi2 : i < (linspace (-r) r size).length := by rw [hlen]; exact hi
    have hj2 : j < (linspace (-r) r size).length := by rw [hlen]; exact hj
    have hxmem : (linspace (-r) r size).getD j 0 ∈ linspace (-r) r size := by
      rw [List.getD_eq_getElem _ 0 hj2]
      exact List.getElem_mem hj2
    have hymem : (linspace (-r) r size).getD i 0 ∈ linspace (-r) r size := by
      rw [List.getD_eq_getElem _ 0 hi2]
      exact List.getElem_mem hi2
    rw [hgrid, List.count_append]
    have hc1 : ((linspace (-r) r size).flatMap
        (fun yi => (linspace (-r) r size).map (fun xi => (xi, yi)))).count
        ((linspace (-r) r size).getD j 0, (linspace (-r) r size).getD i 0) = 1 :=
      count_eq_one_of_mem_beq (nodup_grid_h _ _ hnd hnd)
        (grid_block_mem _ _ _ _ hxmem hymem)
    have hc2 : ((linspace (-r) r size).flatMap
        (fun xi => (linspace (-r) r size).map (fun yi => (xi, yi)))).count
        ((linspace (-r) r size).getD j 0, (linspace (-r) r size).getD i 0) = 1 :=
      count_eq_one_of_mem_beq (nodup_grid_v _ _ hnd hnd)
        (grid_block_mem_v _ _ _ _ hxmem hymem)
    rw [hc1, hc2]

/-- Witness for C4: the 2×2 grid over `[-5, 5]` at concrete parameters. -/
theorem generate_grid_spec_witness :
    (generate_grid 2 5).length = 2 * 2 * 2 ∧
    (generate_grid 2 5).count ((linspace (-5) 5 2).getD 0 0, (linspace (-5) 5 2).getD 0 0) = 2 :=
  ⟨(generate_grid_spec 2 5 (by norm_num) (by norm_num)).1,
   (generate_grid_spec 2 5 (by norm_num) (by norm_num)).2.2.2 0 0 (by norm_num) (by norm_num)⟩


/-- `foldl min` returns an element of `acc :: t` that bounds all of them
from below. -/
theorem foldl_min_spec (acc : ℝ) (t : List ℝ) :
    t.foldl min acc ∈ acc :: t ∧ ∀ x ∈ acc :: t, t.foldl min acc ≤ x := by
  induction t generalizing acc with
  | nil => simp
  | cons b t ih =>
    have ihb := ih (min acc b)
    constructor
    · rw [List.foldl_cons]
      rcases List.mem_cons.mp ihb.1 with h | h
      · rcases min_choice acc b with hm | hm
        · rw [h, hm]
          exact List.mem_cons_self _ _
        · rw [h, hm]
          exact List.mem_cons_of_mem _ (List.mem_cons_self _ _)
      · exact List.mem_cons_of_mem _ (List.mem_cons_of_mem _ h)
    · intro x hx
      rw [List.foldl_cons]
      rcases List.mem_cons.mp hx with rfl | hx2
      · exact le_trans (ihb.2 _ (List.mem_cons_self _ _)) (min_le_left _ _)
      · rcases List.mem_cons.mp hx2 with rfl | hx3
        · exact le_trans (ihb.2 _ (List.mem_cons_self _ _)) (min_le_right _ _)
        · exact ihb.2 _ (List.mem_cons_of_mem _ hx3)

/-- `foldl max` returns an element of `acc :: t` that bounds all of them
from above. -/
theorem foldl_max_spec (acc : ℝ) (t : List ℝ) :
    t.foldl max acc ∈ acc :: t ∧ ∀ x ∈ acc :: t, x ≤ t.foldl max acc := by
  induction t generalizing acc with
  | nil => simp
  | cons b t ih =>
    have ihb := ih (max acc b)
    constructor
    · rw [List.foldl_cons]
      rcases List.mem_cons.mp ihb.1 with h | h
      · rcases max_choice acc b with hm | hm
        · rw [h, hm]
          exact List.mem_cons_self _ _
        · rw [h, hm]
          exact List.mem_cons_of_mem _ (List.mem_cons_self _ _)
      · exact List.mem_cons_of_mem _ (List.mem_cons_of_mem _ h)
    · intro x hx
      rw [List.foldl_cons]
      rcases List.mem_cons.mp hx with rfl | hx2
      · exact le_trans (le_max_left _ _) (ihb.2 _ (List.mem_cons_self _ _))
      · rcases List.mem_cons.mp hx2 with rfl | hx3
        · exact le_trans (le_max_right _ _) (ihb.2 _ (List.mem_cons_self _ _))
        · exact ihb.2 _ (List.mem_cons_of_mem _ hx3)

/-- `listMin` of a nonempty list is its least element. -/
theorem listMin_spec (d : List ℝ) (hd : d ≠ []) :
    listMin d ∈ d ∧ ∀ x ∈ d, listMin d ≤ x := by
  cases d with
  | nil => exact absurd rfl hd
  | cons x t => exact foldl_min_spec x t

/-- `listMax` of a nonempty list is its greatest element. -/
theorem listMax_spec (d : List ℝ) (hd : d ≠ []) :
    listMax d ∈ d ∧ ∀ x ∈ d, x ≤ listMax d := by
  cases d with
  | nil => exact absurd rfl hd
  | cons x t => exact foldl_max_spec x t

/-- A named numeric column list membership transfers through
`numericCols`. -/
theorem mem_numericCols (df : DataFrame) (name : String) (vals : List (Option ℝ)) :
    (name, vals) ∈ numericCols df ↔ (name, Column.numeric vals) ∈ df.cols := by
  rw [numericCols, List.mem_filterMap]
  constructor
  · rintro ⟨⟨n, col⟩, hmem, heq⟩
    cases col with
    | numeric v =>
      simp only [Option.some.injEq, Prod.mk.injEq] at heq
      obtain ⟨rfl, rfl⟩ := heq
      exact hmem
    | object v => simp at heq
  · intro h
    exact ⟨(name, Column.numeric vals), h, rfl⟩

/-- With duplicate-free keys, a key determines its associated value. -/
theorem eq_of_mem_of_nodup_keys {β : Type} {l : List (String × β)}
    (h : (l.map Prod.fst).Nodup) {k : String} {a b : β}
    (ha : (k, a) ∈ l) (hb : (k, b) ∈ l) : a = b := by
  induction l with
  | nil => simp at ha
  | cons p t ih =>
    rw [List.map_cons, List.nodup_cons] at h
    rcases List.mem_cons.mp ha with rfl | ha2
    · rcases List.mem_cons.mp hb with heq | hb2
      · exact (congrArg Prod.snd heq).symm
      · exact absurd (List.mem_map.mpr ⟨(k, b), hb2, rfl⟩) h.1
    · rcases List.mem_cons.mp hb with heq | hb2
      · exfalso
        apply h.1
        rw [← heq]
        exact List.mem_map.mpr ⟨(k, a), ha2, rfl⟩
      · exact ih h.2 ha2 hb2

/-- Non-missing and missing entries of a column partition it. -/
theorem dropna_length_add (v : List (Option ℝ)) :
    (dropna v).length + countMissing v = v.length := by
  induction v with
  | nil => rfl
  | cons o t ih =>
    cases o with
    | none =>
      have h1 : dropna (none :: t) = dropna t := rfl
      have h2 : countMissing (none :: t) = countMissing t + 1 := by
        simp [countMissing, List.countP_cons]
      rw [h1, h2, List.length_cons]
      omega
    | some x =>
      have h1 : dropna (some x :: t) = x :: dropna t := rfl
      have h2 : countMissing (some x :: t) = countMissing t := by
        simp [countMissing, List.countP_cons]
      rw [h1, h2, List.length_cons, List.length_cons]
      omega

/-- Membership characterization of the statistics association list. -/
theorem mem_compute_basic_stats (df : DataFrame) (name : String) (s : ColStats) :
    (name, s) ∈ compute_basic_stats df ↔
      ∃ vals, (name, vals) ∈ numericCols df ∧ dropna vals ≠ [] ∧ s = colStatsOf vals := by
  rw [compute_basic_stats, List.mem_filterMap]
  constructor
  · rintro ⟨⟨n, vals⟩, hmem, heq⟩
    by_cases hz : (dropna vals).length = 0
    · simp [hz] at heq
    · simp only [if_neg hz, Option.some.injEq, Prod.mk.injEq] at heq
      obtain ⟨rfl, rfl⟩ := heq
      exact ⟨vals, hmem, fun hnil => hz (by rw [hnil]; rfl), rfl⟩
  · rintro ⟨vals, hmem, hne, rfl⟩
    refine ⟨(name, vals), hmem, ?_⟩
    have hz : ¬ (dropna vals).length = 0 := fun h => hne (List.length_eq_zero.mp h)
    simp [hz]


/-- C5: `compute_basic_stats` keys are exactly the numeric columns with at
least one non-missing value (empty-after-dropping and non-numeric columns
are silently omitted); for each reported column, `count` is the number of
non-missing values, `missing` the number of missing values of the original
column (so `count + missing` is the column length), `std` the sample
standard deviation normalized by `n-1` (NaN when only one value remains),
and `mean`/`min`/`max`/`median`/`q25`/`q75` are computed over the
non-missing values only. -/
theorem compute_basic_stats_spec (df : DataFrame)
    (hnod : (df.cols.map Prod.fst).Nodup) :
    (∀ name, name ∈ (compute_basic_stats df).map Prod.fst ↔
      ∃ vals, (name, Column.numeric vals) ∈ df.cols ∧ dropna vals ≠ []) ∧
    (∀ name vals s, (name, Column.numeric vals) ∈ df.cols →
      (name, s) ∈ compute_basic_stats df →
      s.count = (dropna vals).length ∧
      s.count + s.missing = vals.length ∧
      s.missing = countMissing vals ∧
      s.mean = (dropna vals).sum / ((dropna vals).length : ℝ) ∧
      (s.min ∈ dropna vals ∧ ∀ x ∈ dropna vals, s.min ≤ x) ∧
      (s.max ∈ dropna vals ∧ ∀ x ∈ dropna vals, x ≤ s.max) ∧
      (2 ≤ s.count → s.std = NpFloat.val (Real.sqrt
        (((dropna vals).map
          (fun x => (x - (dropna vals).sum / ((dropna vals).length : ℝ)) ^ 2)).sum /
          ((s.count : ℝ) - 1)))) ∧
      (s.count = 1 → s.std = NpFloat.nan) ∧
      (∀ sorted : List ℝ, sorted.Perm (dropna vals) →
        sorted.Sorted (fun x y => x ≤ y) →
        s.median = medianOfSorted s.count sorted ∧
        s.q25 = quantileOfSorted (1 / 4) s.count sorted ∧
        s.q75 = quantileOfSorted (3 / 4) s.count sorted)) := by
  constructor
  · intro name
    constructor
    · intro h
      rw [List.mem_map] at h
      obtain ⟨⟨n, st⟩, hmem, heq⟩ := h
      obtain ⟨vals, hv, hne, -⟩ := (mem_compute_basic_stats df n st).mp hmem
      cases heq
      exact ⟨vals, (mem_numericCols df _ vals).mp hv, hne⟩
    · rintro ⟨vals, hv, hne⟩
      rw [List.mem_map]
      refine ⟨(name, colStatsOf vals), ?_, rfl⟩
      exact (mem_compute_basic_stats df name (colStatsOf vals)).mpr
        ⟨vals, (mem_numericCols df name vals).mpr hv, hne, rfl⟩
  · intro name vals s hcol hmem
    obtain ⟨vals2, hv2, hne2, rfl⟩ := (mem_compute_basic_stats df name s).mp hmem
    have hcol2 : (name, Column.numeric vals2) ∈ df.cols := (mem_numericCols df name vals2).mp hv2
    have hveq : vals = vals2 := by
      have := eq_of_mem_of_nodup_keys hnod hcol hcol2
      exact Column.numeric.inj this
    subst hveq
    have hcount : (colStatsOf vals).count = (dropna vals).length := rfl
    refine ⟨hcount, ?_, rfl, rfl, ?_, ?_, ?_, ?_, ?_⟩
    · rw [hcount]
      exact dropna_length_add vals
    · exact listMin_spec (dropna vals) hne2
    · exact listMax_spec (dropna vals) hne2
    · intro h2
      rw [hcount] at h2
      have hgt : ¬ (dropna vals).length ≤ 1 := by omega
      simp only [colStatsOf, seriesStd, if_neg hgt, seriesMean, hcount]
    · intro h1
      rw [hcount] at h1
      have hle : (dropna vals).length ≤ 1 := by omega
      simp only [colStatsOf, seriesStd, if_pos hle]
    · intro sorted hperm hsorted
      have hsorteq : sortAsc (dropna vals) = sorted :=
        List.eq_of_perm_of_sorted ((List.perm_insertionSort _ _).trans hperm.symm)
          (List.sorted_insertionSort _ _) hsorted
      refine ⟨?_, ?_, ?_⟩
      · simp only [colStatsOf, seriesMedian, hcount, hsorteq]
      · simp only [colStatsOf, seriesQuantile, hcount, hsorteq]
      · simp only [colStatsOf, seriesQuantile, hcount, hsorteq]

/-- Witness for C5: a dataframe with one numeric column holding a missing
value, an all-missing numeric column, and an object column; its keys and
the count/missing fields of column a, via the theorem. -/
theorem compute_basic_stats_spec_witness :
    ("a" ∈ (compute_basic_stats
      ⟨[("a", Column.numeric [some 1, none, some 3]),
        ("b", Column.numeric [none]),
        ("c", Column.object ["x"])]⟩).map Prod.fst) ∧
    ¬ ("b" ∈ (compute_basic_stats
      ⟨[("a", Column.numeric [some 1, none, some 3]),
        ("b", Column.numeric [none]),
        ("c", Column.object ["x"])]⟩).map Prod.fst) := by
  have hnod : (([("a", Column.numeric [some 1, none, some 3]),
      ("b", Column.numeric [none]),
      ("c", Column.object ["x"])] : List (String × Column)).map Prod.fst).Nodup := by
    simp
  constructor
  · exact (compute_basic_stats_spec ⟨_⟩ hnod).1 "a" |>.mpr
      ⟨[some 1, none, some 3], by simp, by simp [dropna]⟩
  · intro hmem
    obtain ⟨vals, hv, hne⟩ := (compute_basic_stats_spec ⟨_⟩ hnod).1 "b" |>.mp hmem
    simp only [List.mem_cons, Prod.mk.injEq, List.mem_singleton] at hv
    rcases hv with ⟨h1, -⟩ | ⟨-, h2⟩ | ⟨h3, -⟩ | h4
    · exact absurd h1 (by decide)
    · exact hne (by rw [Column.numeric.inj h2]; rfl)
    · exact absurd h3 (by decide)
    · simp at h4


/-- Pairing a column with itself keeps exactly its non-missing values,
duplicated into pairs. -/
theorem pairObs_self (v : List (Option ℝ)) :
    pairObs v v = (dropna v).map (fun x => (x, x)) := by
  induction v with
  | nil => rfl
  | cons o t ih =>
    cases o with
    | none =>
      have h1 : pairObs (none :: t) (none :: t) = pairObs t t := rfl
      have h2 : dropna (none :: t) = dropna t := rfl
      rw [h1, h2, ih]
    | some x =>
      have h1 : pairObs (some x :: t) (some x :: t) = (x, x) :: pairObs t t := rfl
      have h2 : dropna (some x :: t) = x :: dropna t := rfl
      rw [h1, h2, List.map_cons, ih]

/-- Swapping the two columns swaps each pairwise-complete observation. -/
theorem pairObs_swap (v w : List (Option ℝ)) :
    pairObs w v = (pairObs v w).map Prod.swap := by
  induction v generalizing w with
  | nil =>
    cases w with
    | nil => rfl
    | cons p u => rfl
  | cons o t ih =>
    cases w with
    | nil => rfl
    | cons p u =>
      cases o with
      | none =>
        cases p with
        | none =>
          have h1 : pairObs (none :: u) ((none : Option ℝ) :: t) = pairObs u t := rfl
          have h2 : pairObs ((none : Option ℝ) :: t) (none :: u) = pairObs t u := rfl
          rw [h1, h2, ih u]
        | some y =>
          have h1 : pairObs (some y :: u) ((none : Option ℝ) :: t) = pairObs u t := rfl
          have h2 : pairObs ((none : Option ℝ) :: t) (some y :: u) = pairObs t u := rfl
          rw [h1, h2, ih u]
      | some x =>
        cases p with
        | none =>
          have h1 : pairObs (none :: u) (some x :: t) = pairObs u t := rfl
          have h2 : pairObs (some x :: t) (none :: u) = pairObs t u := rfl
          rw [h1, h2, ih u]
        | some y =>
          have h1 : pairObs (some y :: u) (some x :: t) = (y, x) :: pairObs u t := rfl
          have h2 : pairObs (some x :: t) (some y :: u) = (x, y) :: pairObs t u := rfl
          rw [h1, h2, List.map_cons, ih u]
          rfl

/-- Pearson correlation is symmetric in its two columns. -/
theorem nancorr_comm (v w : List (Option ℝ)) : nancorr v w = nancorr w v := by
  rw [nancorr, nancorr, pairObs_swap v w]
  simp only [List.length_map]
  by_cases h0 : (pairObs v w).length = 0
  · simp [h0]
  · simp only [if_neg h0]
    have hfst : ((pairObs v w).map Prod.swap).map Prod.fst = (pairObs v w).map Prod.snd := by
      rw [List.map_map]
      exact List.map_congr_left (fun p _ => rfl)
    have hsnd : ((pairObs v w).map Prod.swap).map Prod.snd = (pairObs v w).map Prod.fst := by
      rw [List.map_map]
      exact List.map_congr_left (fun p _ => rfl)
    rw [hfst, hsnd]
    have hsxx : ∀ mx : ℝ, ((pairObs v w).map Prod.swap).map (fun p => (p.1 - mx) ^ 2) =
        (pairObs v w).map (fun p => (p.2 - mx) ^ 2) := by
      intro mx
      rw [List.map_map]
      exact List.map_congr_left (fun p _ => rfl)
    have hsyy : ∀ my : ℝ, ((pairObs v w).map Prod.swap).map (fun p => (p.2 - my) ^ 2) =
        (pairObs v w).map (fun p => (p.1 - my) ^ 2) := by
      intro my
      rw [List.map_map]
      exact List.map_congr_left (fun p _ => rfl)
    have hsxy : ∀ mx my : ℝ,
        ((pairObs v w).map Prod.swap).map (fun p => (p.1 - mx) * (p.2 - my)) =
        (pairObs v w).map (fun p => (p.1 - my) * (p.2 - mx)) := by
      intro mx my
      rw [List.map_map]
      exact List.map_congr_left (fun p _ => by simp [Prod.swap]; ring)
    rw [hsxx, hsyy, hsxy, mul_comm (((pairObs v w).map (fun p => (p.2 - _) ^ 2)).sum)]


/-- A sum of nonnegative reals vanishes exactly when every term does. -/
theorem list_sum_nonneg_eq_zero (l : List ℝ) (h : ∀ x ∈ l, 0 ≤ x) :
    l.sum = 0 ↔ ∀ x ∈ l, x = 0 := by
  induction l with
  | nil => simp
  | cons a t ih =>
    rw [List.sum_cons]
    have ha : 0 ≤ a := h a (List.mem_cons_self _ _)
    have ht : ∀ x ∈ t, 0 ≤ x := fun x hx => h x (List.mem_cons_of_mem _ hx)
    have hts : 0 ≤ t.sum := List.sum_nonneg ht
    constructor
    · intro hz
      have ha0 : a = 0 := by linarith
      have hts0 : t.sum = 0 := by linarith
      intro x hx
      rcases List.mem_cons.mp hx with rfl | hx2
      · exact ha0
      · exact (ih ht).mp hts0 x hx2
    · intro hall
      rw [hall a (List.mem_cons_self _ _),
        (ih ht).mpr (fun x hx => hall x (List.mem_cons_of_mem _ hx))]
      ring

/-- The sum of a list whose elements all equal `c`. -/
theorem list_sum_of_all_eq (d : List ℝ) (c : ℝ) (h : ∀ x ∈ d, x = c) :
    d.sum = d.length * c := by
  induction d with
  | nil => simp
  | cons a t ih =>
    rw [List.sum_cons, h a (List.mem_cons_self _ _),
      ih (fun x hx => h x (List.mem_cons_of_mem _ hx)), List.length_cons]
    push_cast
    ring

/-- The sum of squared deviations from the mean vanishes exactly when the
list has no two distinct elements. -/
theorem sum_sq_dev_eq_zero_iff (d : List ℝ) (hd : d ≠ []) :
    (d.map (fun x => (x - d.sum / (d.length : ℝ)) ^ 2)).sum = 0 ↔
      ∀ x ∈ d, ∀ y ∈ d, x = y := by
  have hnn : ∀ z ∈ d.map (fun x => (x - d.sum / (d.length : ℝ)) ^ 2), 0 ≤ z := by
    intro z hz
    rw [List.mem_map] at hz
    obtain ⟨x, -, rfl⟩ := hz
    positivity
  rw [list_sum_nonneg_eq_zero _ hnn]
  constructor
  · intro h x hx y hy
    have hxm := h _ (List.mem_map.mpr ⟨x, hx, rfl⟩)
    have hym := h _ (List.mem_map.mpr ⟨y, hy, rfl⟩)
    have hx0 : x - d.sum / (d.length : ℝ) = 0 := by
      have := sq_eq_zero_iff.mp hxm
      exact this
    have hy0 : y - d.sum / (d.length : ℝ) = 0 := by
      have := sq_eq_zero_iff.mp hym
      exact this
    linarith
  · intro h z hz
    rw [List.mem_map] at hz
    obtain ⟨x, hx, rfl⟩ := hz
    have hlen : (0 : ℝ) < (d.length : ℝ) := by
      have : d.length ≠ 0 := fun hc => hd (List.length_eq_zero.mp hc)
      have : 0 < d.length := Nat.pos_of_ne_zero this
      exact_mod_cast this
    have hsum : d.sum = d.length * x := list_sum_of_all_eq d x (fun y hy => h y hy x hx)
    rw [hsum]
    field_simp

/-- The diagonal entry of the correlation: 1 when the column has two
distinct non-missing values, NaN otherwise. -/
theorem nancorr_self (v : List (Option ℝ)) :
    ((∃ x ∈ dropna v, ∃ y ∈ dropna v, x ≠ y) → nancorr v v = NpFloat.val 1) ∧
    ((¬ ∃ x ∈ dropna v, ∃ y ∈ dropna v, x ≠ y) → nancorr v v = NpFloat.nan) := by
  by_cases h0 : (dropna v).length = 0
  · have hnil : dropna v = [] := List.length_eq_zero.mp h0
    constructor
    · intro hex
      obtain ⟨x, hx, -⟩ := hex
      rw [hnil] at hx
      simp at hx
    · intro _
      simp only [nancorr, pairObs_self, hnil]
      rfl
  · have hdne : dropna v ≠ [] := fun hc => h0 (by rw [hc]; rfl)
    have hdiagmap : ∀ (f : ℝ × ℝ → ℝ) (g : ℝ → ℝ), (∀ x, f (x, x) = g x) →
        ((dropna v).map (fun x => (x, x))).map f = (dropna v).map g := by
      intro f g hf
      rw [List.map_map]
      exact List.map_congr_left (fun x _ => hf x)
    have hfst : ((dropna v).map (fun x => (x, x))).map Prod.fst = dropna v := by
      have := hdiagmap Prod.fst (fun x => x) (fun x => rfl)
      rw [this]
      simp
    have hsnd : ((dropna v).map (fun x => (x, x))).map Prod.snd = dropna v := by
      have := hdiagmap Prod.snd (fun x => x) (fun x => rfl)
      rw [this]
      simp
    have hS0 : 0 ≤ ((dropna v).map
        (fun x => (x - (dropna v).sum / ((dropna v).length : ℝ)) ^ 2)).sum := by
      apply List.sum_nonneg
      intro z hz
      rw [List.mem_map] at hz
      obtain ⟨x, -, rfl⟩ := hz
      positivity
    have hval : nancorr v v =
        (if ((dropna v).map
            (fun x => (x - (dropna v).sum / ((dropna v).length : ℝ)) ^ 2)).sum = 0
          then NpFloat.nan else NpFloat.val 1) := by
      simp only [nancorr, pairObs_self, List.length_map, if_neg h0]
      rw [hfst, hsnd]
      rw [hdiagmap (fun p => (p.1 - (dropna v).sum / ((dropna v).length : ℝ)) ^ 2)
        (fun x => (x - (dropna v).sum / ((dropna v).length : ℝ)) ^ 2) (fun x => rfl)]
      rw [hdiagmap (fun p => (p.2 - (dropna v).sum / ((dropna v).length : ℝ)) ^ 2)
        (fun x => (x - (dropna v).sum / ((dropna v).length : ℝ)) ^ 2) (fun x => rfl)]
      rw [hdiagmap (fun p => (p.1 - (dropna v).sum / ((dropna v).length : ℝ)) *
          (p.2 - (dropna v).sum / ((dropna v).length : ℝ)))
        (fun x => (x - (dropna v).sum / ((dropna v).length : ℝ)) ^ 2) (fun x => by ring)]
      rw [Real.sqrt_mul_self hS0]
      by_cases hS : ((dropna v).map
          (fun x => (x - (dropna v).sum / ((dropna v).length : ℝ)) ^ 2)).sum = 0
      · rw [if_pos hS, if_pos hS]
      · rw [if_neg hS, if_neg hS, div_self hS]
    rw [hval]
    constructor
    · intro hex
      obtain ⟨x, hx, y, hy, hxy⟩ := hex
      have hS : ¬ ((dropna v).map
          (fun z => (z - (dropna v).sum / ((dropna v).length : ℝ)) ^ 2)).sum = 0 := by
        intro hS
        exact hxy ((sum_sq_dev_eq_zero_iff (dropna v) hdne).mp hS x hx y hy)
      rw [if_neg hS]
    · intro hnex
      push_neg at hnex
      have hS : ((dropna v).map
          (fun z => (z - (dropna v).sum / ((dropna v).length : ℝ)) ^ 2)).sum = 0 :=
        (sum_sq_dev_eq_zero_iff (dropna v) hdne).mpr hnex
      rw [if_pos hS]


/-- Entry `(i, j)` of the correlation value matrix. -/
theorem compute_correlation_entry (df : DataFrame) (i j : Nat)
    (hi : i < (numericCols df).length) (hj : j < (numericCols df).length) :
    ((compute_correlation df).2.getD i []).getD j NpFloat.nan =
      nancorr ((numericCols df).getD i ("", [])).2 ((numericCols df).getD j ("", [])).2 := by
  have hmap : (compute_correlation df).2 =
      (numericCols df).map (fun ci => (numericCols df).map (fun cj => nancorr ci.2 cj.2)) := rfl
  rw [hmap, List.getD_eq_getElem _ [] (by simpa using hi), List.getElem_map,
    List.getD_eq_getElem _ NpFloat.nan (by simpa using hj), List.getElem_map,
    List.getD_eq_getElem _ ("", []) hi, List.getD_eq_getElem _ ("", []) hj]

/-- C9 (amended): `compute_correlation` returns the numeric column names in
frame order with an n×n value matrix that is symmetric; a diagonal entry
is 1.0 exactly when its column has two distinct non-missing values, and
NaN otherwise (constant, all-missing or empty columns) — pandas does not
force the diagonal to 1. -/
theorem compute_correlation_spec (df : DataFrame) :
    (compute_correlation df).1 = (numericCols df).map Prod.fst ∧
    (compute_correlation df).2.length = (numericCols df).length ∧
    (∀ row ∈ (compute_correlation df).2, row.length = (numericCols df).length) ∧
    (∀ i j, i < (numericCols df).length → j < (numericCols df).length →
      ((compute_correlation df).2.getD i []).getD j NpFloat.nan =
        ((compute_correlation df).2.getD j []).getD i NpFloat.nan) ∧
    (∀ i, i < (numericCols df).length →
      ((∃ x ∈ dropna ((numericCols df).getD i ("", [])).2,
          ∃ y ∈ dropna ((numericCols df).getD i ("", [])).2, x ≠ y) →
        ((compute_correlation df).2.getD i []).getD i NpFloat.nan = NpFloat.val 1) ∧
      ((¬ ∃ x ∈ dropna ((numericCols df).getD i ("", [])).2,
          ∃ y ∈ dropna ((numericCols df).getD i ("", [])).2, x ≠ y) →
        ((compute_correlation df).2.getD i []).getD i NpFloat.nan = NpFloat.nan)) := by
  have hmap : (compute_correlation df).2 =
      (numericCols df).map (fun ci => (numericCols df).map (fun cj => nancorr ci.2 cj.2)) := rfl
  refine ⟨rfl, by rw [hmap]; simp, ?_, ?_, ?_⟩
  · intro row hrow
    rw [hmap, List.mem_map] at hrow
    obtain ⟨c, -, rfl⟩ := hrow
    simp
  · intro i j hi hj
    rw [compute_correlation_entry df i j hi hj, compute_correlation_entry df j i hj hi,
      nancorr_comm]
  · intro i hi
    rw [compute_correlation_entry df i i hi hi]
    exact nancorr_self _

/-- Counterexample for C9 as stated: on a dataframe with the single
constant numeric column `a = [1, 1]`, the diagonal entry of
`compute_correlation` is NaN, not 1.0 (the Pearson divisor is zero). -/
theorem compute_correlation_claim_false :
    compute_correlation ⟨[("a", Column.numeric [some 1, some 1])]⟩ =
      (["a"], [[NpFloat.nan]]) ∧ NpFloat.nan ≠ NpFloat.val 1 := by
  constructor
  · have hnan : nancorr [some (1 : ℝ), some 1] [some 1, some 1] = NpFloat.nan := by
      apply (nancorr_self [some (1 : ℝ), some 1]).2
      rintro ⟨x, hx, y, hy, hxy⟩
      have hd : dropna [some (1 : ℝ), some 1] = [1, 1] := rfl
      rw [hd] at hx hy
      simp only [List.mem_cons, List.mem_singleton, List.not_mem_nil, or_false] at hx hy
      rcases hx with rfl | rfl <;> rcases hy with h | h <;> exact hxy (by rw [h])
    have hred : compute_correlation ⟨[("a", Column.numeric [some 1, some 1])]⟩ =
        (["a"], [[nancorr [some 1, some 1] [some 1, some 1]]]) := rfl
    rw [hred, hnan]
  · simp

/-- Witness for C9: on the single non-constant column `[1, 2]` the
diagonal entry is 1.0, via the amended theorem. -/
theorem compute_correlation_spec_witness :
    ((compute_correlation ⟨[("a", Column.numeric [some 1, some 2])]⟩).2.getD 0 []).getD 0
      NpFloat.nan = NpFloat.val 1 := by
  have hi : 0 < (numericCols ⟨[("a", Column.numeric [some (1 : ℝ), some 2])]⟩).length := by
    rw [show (numericCols ⟨[("a", Column.numeric [some (1 : ℝ), some 2])]⟩) =
      [("a", [some 1, some 2])] from rfl]
    simp
  apply ((compute_correlation_spec ⟨[("a", Column.numeric [some 1, some 2])]⟩).2.2.2.2 0 hi).1
  refine ⟨1, ?_, 2, ?_, by norm_num⟩
  · rw [show dropna ((numericCols
      ⟨[("a", Column.numeric [some (1 : ℝ), some 2])]⟩).getD 0 ("", [])).2 = [1, 2] from rfl]
    simp
  · rw [show dropna ((numericCols
      ⟨[("a", Column.numeric [some (1 : ℝ), some 2])]⟩).getD 0 ("", [])).2 = [1, 2] from rfl]
    simp


/-- Adding an element to the data adds its predicate-hit count to the
per-predicate totals. -/
theorem map_countP_cons {α : Type} (ps : List (α → Bool)) (x : α) (t : List α) :
    (ps.map (fun p => (x :: t).countP p)).sum =
      (ps.map (fun p => t.countP p)).sum + ps.countP (fun p => p x) := by
  induction ps with
  | nil => rfl
  | cons p q ih =>
    rw [List.map_cons, List.map_cons, List.sum_cons, List.sum_cons, List.countP_cons p x t,
      ih, List.countP_cons]
    by_cases hpx : p x = true
    · simp only [hpx]
      ring
    · simp only [Bool.not_eq_true] at hpx
      simp only [hpx]
      ring

/-- When the predicates hit each data point exactly once, the per-predicate
counts sum to the data size. -/
theorem sum_map_countP_eq_length {α : Type} (d : List α) (ps : List (α → Bool))
    (h : ∀ x ∈ d, ps.countP (fun p => p x) = 1) :
    (ps.map (fun p => d.countP p)).sum = d.length := by
  induction d with
  | nil =>
    have : ps.map (fun p => List.countP p []) = ps.map (fun _ => 0) :=
      List.map_congr_left (fun p _ => rfl)
    simp [this]
  | cons x t ih =>
    rw [map_countP_cons, ih (fun y hy => h y (List.mem_cons_of_mem _ hy)),
      h x (List.mem_cons_self _ _), List.length_cons]

/-- A predicate satisfied by exactly one member of a duplicate-free list
has count 1 on it. -/
theorem countP_eq_one_unique {α : Type} (l : List α) (hnd : l.Nodup) (a : α) (ha : a ∈ l)
    (p : α → Bool) (hpa : p a = true) (huniq : ∀ b ∈ l, p b = true → b = a) :
    l.countP p = 1 := by
  induction l with
  | nil => simp at ha
  | cons x t ih =>
    rw [List.countP_cons]
    rcases List.mem_cons.mp ha with rfl | ha2
    · rw [if_pos hpa]
      have hzero : t.countP p = 0 := by
        rw [List.countP_eq_zero]
        intro b hb hpb
        have hba := huniq b (List.mem_cons_of_mem _ hb) hpb
        subst hba
        exact (List.nodup_cons.mp hnd).1 hb
      rw [hzero]
    · have hx : ¬ p x = true := by
        intro hpx
        have hxa := huniq x (List.mem_cons_self _ _) hpx
        subst hxa
        exact (List.nodup_cons.mp hnd).1 ha2
      rw [if_neg hx, Nat.add_zero]
      exact ih (List.nodup_cons.mp hnd).2 ha2
        (fun b hb hpb => huniq b (List.mem_cons_of_mem _ hb) hpb)

/-- The explicit value of each `linspace` entry (at least two samples). -/
theorem linspace_getD (s t : ℝ) (num k : Nat) (h2 : 2 ≤ num) (hk : k < num) :
    (linspace s t num).getD k 0 = s + (k : ℝ) * ((t - s) / ((num : ℝ) - 1)) := by
  match num, h2 with
  | Nat.succ (Nat.succ m), _ =>
    have hk2 : k < (List.range (m + 2)).length := by simpa using hk
    rw [linspace, List.getD_eq_getElem _ 0 (by simpa using hk), List.getElem_map,
      List.getElem_range]


/-- Every point of `[f, f + bins*w]` lies in exactly one histogram bin. -/
theorem binPred_exists_unique (f w : ℝ) (bins : Nat) (x : ℝ) (hb : 1 ≤ bins)
    (hw : 0 < w) (hxl : f ≤ x) (hxu : x ≤ f + (bins : ℝ) * w) :
    ∃ i0, i0 < bins ∧ binPred f w bins i0 x = true ∧
      ∀ j, j < bins → binPred f w bins j x = true → j = i0 := by
  have ht0 : 0 ≤ (x - f) / w := div_nonneg (by linarith) hw.le
  have htw : (x - f) / w * w = x - f := div_mul_cancel₀ _ hw.ne.symm
  have hfl : (Nat.floor ((x - f) / w) : ℝ) ≤ (x - f) / w := Nat.floor_le ht0
  have hfu : (x - f) / w < (Nat.floor ((x - f) / w) : ℝ) + 1 :=
    Nat.lt_floor_add_one ((x - f) / w)
  have hlow : ∀ k : Nat, (k : ℝ) ≤ (x - f) / w → f + (k : ℝ) * w ≤ x := by
    intro k hk
    have hmul : (k : ℝ) * w ≤ (x - f) / w * w := mul_le_mul_of_nonneg_right hk hw.le
    rw [htw] at hmul
    linarith
  have hhigh : ∀ k : Nat, (x - f) / w < (k : ℝ) → x < f + (k : ℝ) * w := by
    intro k hk
    have hmul : (x - f) / w * w < (k : ℝ) * w := mul_lt_mul_of_pos_right hk hw
    rw [htw] at hmul
    linarith
  by_cases hcase : Nat.floor ((x - f) / w) < bins - 1
  · refine ⟨Nat.floor ((x - f) / w), by omega, ?_, ?_⟩
    · have hne : ¬ (Nat.floor ((x - f) / w) = bins - 1) := by omega
      rw [binPred, if_neg hne]
      simp only [Bool.and_eq_true, decide_eq_true_eq]
      constructor
      · exact hlow _ hfl
      · have hstep := hhigh (Nat.floor ((x - f) / w) + 1) (by push_cast; linarith)
        push_cast at hstep ⊢
        linarith
    · intro j hj hpj
      by_cases hj1 : j = bins - 1
      · exfalso
        rw [binPred, if_pos hj1] at hpj
        simp only [Bool.and_eq_true, decide_eq_true_eq] at hpj
        have hstep := hhigh (Nat.floor ((x - f) / w) + 1) (by push_cast; linarith)
        have hle : ((bins - 1 : ℕ) : ℝ) * w ≤ x - f := by
          have := hpj.1
          rw [hj1] at *
          linarith [hpj.1]
        have hlt : x - f < ((Nat.floor ((x - f) / w) + 1 : ℕ) : ℝ) * w := by
          push_cast
          push_cast at hstep
          linarith
        have hml : ((bins - 1 : ℕ) : ℝ) * w < ((Nat.floor ((x - f) / w) + 1 : ℕ) : ℝ) * w := by
          linarith
        have hnat : (bins - 1 : ℕ) < Nat.floor ((x - f) / w) + 1 := by
          have := (mul_lt_mul_right hw).mp hml
          exact_mod_cast this
        omega
      · rw [binPred, if_neg hj1] at hpj
        simp only [Bool.and_eq_true, decide_eq_true_eq] at hpj
        have hjle : (j : ℝ) ≤ (x - f) / w := (le_div_iff₀ hw).mpr (by linarith [hpj.1])
        have hjgt : (x - f) / w < (j : ℝ) + 1 := by
          have h1 : x - f < ((j : ℝ) + 1) * w := by linarith [hpj.2]
          by_contra hcon
          push_neg at hcon
          have := mul_le_mul_of_nonneg_right hcon hw.le
          rw [htw] at this
          linarith
        exact ((Nat.floor_eq_iff ht0).mpr ⟨hjle, by linarith⟩).symm
  · refine ⟨bins - 1, by omega, ?_, ?_⟩
    · rw [binPred, if_pos rfl]
      simp only [Bool.and_eq_true, decide_eq_true_eq]
      constructor
      · apply hlow
        calc ((bins - 1 : ℕ) : ℝ) ≤ (Nat.floor ((x - f) / w) : ℝ) :=
              Nat.cast_le.mpr (by omega)
        _ ≤ (x - f) / w := hfl
      · exact hxu
    · intro j hj hpj
      by_cases hj1 : j = bins - 1
      · exact hj1
      · exfalso
        rw [binPred, if_neg hj1] at hpj
        simp only [Bool.and_eq_true, decide_eq_true_eq] at hpj
        have hcast : ((j + 1 : ℕ) : ℝ) ≤ (x - f) / w := by
          have h1 : j + 1 ≤ Nat.floor ((x - f) / w) := by omega
          calc ((j + 1 : ℕ) : ℝ) ≤ (Nat.floor ((x - f) / w) : ℝ) := Nat.cast_le.mpr h1
          _ ≤ (x - f) / w := hfl
        have hgood := hlow (j + 1) hcast
        push_cast at hgood
        linarith [hpj.2]


/-- Histogram core facts for one concrete bin range `[f, l]` covering the
data: the counts sum to the data size and the edges run from `f` to `l`. -/
theorem np_histogram_core (d : List ℝ) (bins : Nat) (hb : 1 ≤ bins) (f l : ℝ)
    (hfl : f < l) (hlo : ∀ x ∈ d, f ≤ x) (hhi : ∀ x ∈ d, x ≤ l) :
    ((List.range bins).map (fun i => d.countP (binPred f ((l - f) / (bins : ℝ)) bins i))).sum =
      d.length ∧
    (linspace f l (bins + 1)).length = bins + 1 ∧
    (linspace f l (bins + 1)).getD 0 0 = f ∧
    (linspace f l (bins + 1)).getD bins 0 = l := by
  have hbne : ((bins : ℝ)) ≠ 0 := by
    have : 0 < bins := hb
    positivity
  have hw : 0 < (l - f) / (bins : ℝ) := by
    apply div_pos (by linarith)
    have : 0 < bins := hb
    exact_mod_cast this
  have hcover : f + (bins : ℝ) * ((l - f) / (bins : ℝ)) = l := by
    field_simp
  refine ⟨?_, linspace_length _ _ _, ?_, ?_⟩
  · have hmm : (List.range bins).map (fun i => d.countP (binPred f ((l - f) / (bins : ℝ)) bins i)) =
        ((List.range bins).map (binPred f ((l - f) / (bins : ℝ)) bins)).map
          (fun p => d.countP p) := by
      rw [List.map_map]
      rfl
    rw [hmm]
    apply sum_map_countP_eq_length
    intro x hx
    rw [List.countP_map]
    obtain ⟨i0, hi0, hp0, huniq⟩ := binPred_exists_unique f ((l - f) / (bins : ℝ)) bins x hb hw
      (hlo x hx) (by rw [hcover]; exact hhi x hx)
    exact countP_eq_one_unique _ (List.nodup_range _) i0 (List.mem_range.mpr hi0) _ hp0
      (fun b hb2 hpb => huniq b (List.mem_range.mp hb2) hpb)
  · rw [linspace_getD f l (bins + 1) 0 (by omega) (by omega)]
    norm_num
  · rw [linspace_getD f l (bins + 1) bins (by omega) (by omega)]
    have hcast : ((bins + 1 : ℕ) : ℝ) - 1 = (bins : ℝ) := by
      push_cast
      ring
    rw [hcast]
    field_simp

/-- `np.histogram` on nonempty data and a positive number of bins:
explicit success value, counts summing to the data size, and edges
spanning `[min, max]` (widened by 0.5 on each side when `min = max`). -/
theorem np_histogram_spec (d : List ℝ) (bins : Nat) (hd : d ≠ []) (hb : 1 ≤ bins) :
    ∃ counts edges, np_histogram d bins = Except.ok (counts, edges) ∧
      counts.sum = d.length ∧
      edges.length = bins + 1 ∧
      (listMin d < listMax d →
        edges.getD 0 0 = listMin d ∧ edges.getD bins 0 = listMax d) ∧
      (listMin d = listMax d →
        edges.getD 0 0 = listMin d - 1 / 2 ∧ edges.getD bins 0 = listMax d + 1 / 2) := by
  have hbz : ¬ bins < 1 := by omega
  have hminmax : listMin d ≤ listMax d :=
    (listMax_spec d hd).2 (listMin d) (listMin_spec d hd).1
  by_cases heq : listMin d = listMax d
  · have hok : np_histogram d bins = Except.ok
        ((List.range bins).map (fun i => d.countP (binPred (listMin d - 1 / 2)
          ((listMax d + 1 / 2 - (listMin d - 1 / 2)) / (bins : ℝ)) bins i)),
         linspace (listMin d - 1 / 2) (listMax d + 1 / 2) (bins + 1)) := by
      simp only [np_histogram, if_neg hbz, if_pos heq]
    have hcore := np_histogram_core d bins hb (listMin d - 1 / 2) (listMax d + 1 / 2)
      (by linarith) (fun x hx => by linarith [(listMin_spec d hd).2 x hx])
      (fun x hx => by linarith [(listMax_spec d hd).2 x hx])
    refine ⟨_, _, hok, hcore.1, hcore.2.1, ?_, ?_⟩
    · intro hlt
      exact absurd heq (ne_of_lt hlt)
    · intro _
      exact ⟨hcore.2.2.1, by rw [heq] at hcore ⊢; exact hcore.2.2.2⟩
  · have hlt : listMin d < listMax d := lt_of_le_of_ne hminmax heq
    have hok : np_histogram d bins = Except.ok
        ((List.range bins).map (fun i => d.countP (binPred (listMin d)
          ((listMax d - listMin d) / (bins : ℝ)) bins i)),
         linspace (listMin d) (listMax d) (bins + 1)) := by
      simp only [np_histogram, if_neg hbz, if_neg heq]
    have hcore := np_histogram_core d bins hb (listMin d) (listMax d)
      hlt (fun x hx => (listMin_spec d hd).2 x hx)
      (fun x hx => (listMax_spec d hd).2 x hx)
    refine ⟨_, _, hok, hcore.1, hcore.2.1, ?_, ?_⟩
    · intro _
      exact ⟨hcore.2.2.1, hcore.2.2.2⟩
    · intro hceq
      exact absurd hceq heq


/-- The midpoint list built from `bins+1` edges: one center per bin, each
the midpoint of its adjacent edges. -/
theorem centers_facts (edges : List ℝ) (bins : Nat) (hlen : edges.length = bins + 1) :
    ((edges.zip edges.tail).map (fun p => (p.1 + p.2) / 2)).length = bins ∧
    ∀ k, k < bins → ((edges.zip edges.tail).map (fun p => (p.1 + p.2) / 2)).getD k 0 =
      (edges.getD k 0 + edges.getD (k + 1) 0) / 2 := by
  have hzlen : (edges.zip edges.tail).length = bins := by
    rw [List.length_zip, List.length_tail, hlen]
    omega
  constructor
  · rw [List.length_map, hzlen]
  · intro k hk
    have hk1 : k < (edges.zip edges.tail).length := by
      rw [hzlen]
      exact hk
    have hke : k < edges.length := by omega
    have hke1 : k + 1 < edges.length := by omega
    rw [List.getD_eq_getElem _ 0 (by rw [List.length_map]; exact hk1), List.getElem_map,
      List.getElem_zip, List.getElem_tail, List.getD_eq_getElem _ 0 hke,
      List.getD_eq_getElem _ 0 hke1]

/-- C6 (amended): for every `bins ≥ 1`, `prepare_histogram_data` raises
`ValueError` exactly when the column is absent or has zero values left
after dropping missing ones (NumPy additionally raises `ValueError` for
`bins < 1` even on a valid column, so the original unrestricted "iff"
fails); on success, the bin counts sum to the number of non-missing
values, `bin_edges` holds `bins+1` values running from the column minimum
to the column maximum — except that NumPy widens a degenerate range
`min = max` to `[min-0.5, max+0.5]` — and `bin_centers` are the midpoints
of adjacent edges. -/
theorem prepare_histogram_spec_amended (df : DataFrame) (column : String) (bins : Nat)
    (hb : 1 ≤ bins) :
    ((∃ msg, prepare_histogram_data df column bins = Except.error (PyErr.valueError msg)) ↔
      (df.cols.lookup column = none ∨
       (∃ v, df.cols.lookup column = some (Column.numeric v) ∧ dropna v = []) ∨
       (∃ sv, df.cols.lookup column = some (Column.object sv) ∧ sv = []))) ∧
    (∀ v, df.cols.lookup column = some (Column.numeric v) → dropna v ≠ [] →
      ∃ h : HistData, prepare_histogram_data df column bins = Except.ok h ∧
        h.counts.sum = (dropna v).length ∧
        h.bin_edges.length = bins + 1 ∧
        (listMin (dropna v) < listMax (dropna v) →
          h.bin_edges.getD 0 0 = listMin (dropna v) ∧
          h.bin_edges.getD bins 0 = listMax (dropna v)) ∧
        (listMin (dropna v) = listMax (dropna v) →
          h.bin_edges.getD 0 0 = listMin (dropna v) - 1 / 2 ∧
          h.bin_edges.getD bins 0 = listMax (dropna v) + 1 / 2) ∧
        h.bin_centers.length = bins ∧
        (∀ k, k < bins → h.bin_centers.getD k 0 =
          (h.bin_edges.getD k 0 + h.bin_edges.getD (k + 1) 0) / 2)) := by
  have hsucc : ∀ v, df.cols.lookup column = some (Column.numeric v) → dropna v ≠ [] →
      ∃ h : HistData, prepare_histogram_data df column bins = Except.ok h ∧
        h.counts.sum = (dropna v).length ∧
        h.bin_edges.length = bins + 1 ∧
        (listMin (dropna v) < listMax (dropna v) →
          h.bin_edges.getD 0 0 = listMin (dropna v) ∧
          h.bin_edges.getD bins 0 = listMax (dropna v)) ∧
        (listMin (dropna v) = listMax (dropna v) →
          h.bin_edges.getD 0 0 = listMin (dropna v) - 1 / 2 ∧
          h.bin_edges.getD bins 0 = listMax (dropna v) + 1 / 2) ∧
        h.bin_centers.length = bins ∧
        (∀ k, k < bins → h.bin_centers.getD k 0 =
          (h.bin_edges.getD k 0 + h.bin_edges.getD (k + 1) 0) / 2) := by
    intro v hv hne
    obtain ⟨counts, edges, hok, hsum, hlen, hspan1, hspan2⟩ :=
      np_histogram_spec (dropna v) bins hne hb
    have hlen0 : ¬ (dropna v).length = 0 := fun h => hne (List.length_eq_zero.mp h)
    have hpre : prepare_histogram_data df column bins = Except.ok
        ⟨counts, edges, (edges.zip edges.tail).map (fun p => (p.1 + p.2) / 2)⟩ := by
      simp only [prepare_histogram_data, hv, if_neg hlen0, hok]
    exact ⟨_, hpre, hsum, hlen, hspan1, hspan2,
      (centers_facts edges bins hlen).1, (centers_facts edges bins hlen).2⟩
  refine ⟨?_, hsucc⟩
  constructor
  · rintro ⟨msg, herr⟩
    cases hlk : df.cols.lookup column with
    | none => exact Or.inl rfl
    | some col =>
      cases col with
      | numeric v =>
        by_cases hz : (dropna v).length = 0
        · exact Or.inr (Or.inl ⟨v, rfl, List.length_eq_zero.mp hz⟩)
        · obtain ⟨h, hpre, -⟩ := hsucc v hlk (fun hc => hz (by rw [hc]; rfl))
          rw [hpre] at herr
          exact absurd herr (by simp)
      | object sv =>
        by_cases hz : sv.length = 0
        · exact Or.inr (Or.inr ⟨sv, rfl, List.length_eq_zero.mp hz⟩)
        · simp only [prepare_histogram_data, hlk, if_neg hz] at herr
          exact absurd herr (by simp)
  · rintro (hnone | ⟨v, hlk, hnil⟩ | ⟨sv, hlk, hnil⟩)
    · exact ⟨"Column not found in DataFrame", by simp [prepare_histogram_data, hnone]⟩
    · refine ⟨"Column has no valid data", ?_⟩
      have hz : (dropna v).length = 0 := by rw [hnil]; rfl
      simp [prepare_histogram_data, hlk, hz]
    · refine ⟨"Column has no valid data", ?_⟩
      have hz : sv.length = 0 := by rw [hnil]; rfl
      simp [prepare_histogram_data, hlk, hz]


/-- Counterexample for C6 as stated: (i) with a present, non-empty numeric
column but `bins = 0`, `prepare_histogram_data` still raises `ValueError`
(NumPy rejects a non-positive integer bin count), so "ValueError iff
absent-or-empty" fails; (ii) on the constant column `[5]` the returned
edges run from 4.5 to 5.5, not over `[min, max] = [5, 5]`, so "edges
spanning [min, max]" fails as well. -/
theorem prepare_histogram_claim_false :
    (∃ msg, prepare_histogram_data ⟨[("a", Column.numeric [some 1, some 2])]⟩ "a" 0 =
      Except.error (PyErr.valueError msg)) ∧
    (∃ h : HistData,
      prepare_histogram_data ⟨[("b", Column.numeric [some 5])]⟩ "b" 1 = Except.ok h ∧
      h.bin_edges.getD 0 0 = 4.5 ∧ h.bin_edges.getD 1 0 = 5.5) ∧
    listMin (dropna [some (5 : ℝ)]) = 5 ∧ listMax (dropna [some (5 : ℝ)]) = 5 ∧
    (4.5 : ℝ) ≠ 5 ∧ (5.5 : ℝ) ≠ 5 := by
  refine ⟨⟨"bins must be positive, when an integer", rfl⟩, ?_, rfl, rfl,
    by norm_num, by norm_num⟩
  obtain ⟨counts, edges, hok, hsum, hlen, hspan1, hspan2⟩ :=
    np_histogram_spec (dropna [some (5 : ℝ)]) 1 (by simp [dropna]) (le_refl 1)
  have hmm : listMin (dropna [some (5 : ℝ)]) = listMax (dropna [some (5 : ℝ)]) := rfl
  have hlk : ([("b", Column.numeric [some (5 : ℝ)])] : List (String × Column)).lookup "b" =
      some (Column.numeric [some 5]) := rfl
  have hlen0 : ¬ (dropna [some (5 : ℝ)]).length = 0 := by simp [dropna]
  have hpre : prepare_histogram_data ⟨[("b", Column.numeric [some 5])]⟩ "b" 1 =
      Except.ok ⟨counts, edges, (edges.zip edges.tail).map (fun p => (p.1 + p.2) / 2)⟩ := by
    simp only [prepare_histogram_data, hlk, if_neg hlen0, hok]
  refine ⟨_, hpre, ?_, ?_⟩
  · have h1 := (hspan2 hmm).1
    rw [show listMin (dropna [some (5 : ℝ)]) = 5 from rfl] at h1
    rw [h1]
    norm_num
  · have h2 := (hspan2 hmm).2
    rw [show listMax (dropna [some (5 : ℝ)]) = 5 from rfl] at h2
    rw [h2]
    norm_num

/-- Witness for C6: at `bins = 2` on a present two-value column the call
succeeds with counts summing to 2, and an absent column raises
`ValueError`, via the amended theorem. -/
theorem prepare_histogram_spec_amended_witness :
    (∃ h : HistData,
      prepare_histogram_data ⟨[("a", Column.numeric [some 1, some 2])]⟩ "a" 2 =
        Except.ok h ∧ h.counts.sum = (dropna [some (1 : ℝ), some 2]).length) ∧
    (∃ msg, prepare_histogram_data ⟨[("a", Column.numeric [some 1, some 2])]⟩ "z" 2 =
      Except.error (PyErr.valueError msg)) := by
  constructor
  · obtain ⟨h, hok, hsum, -⟩ :=
      (prepare_histogram_spec_amended ⟨[("a", Column.numeric [some 1, some 2])]⟩ "a" 2
        (by norm_num)).2 [some 1, some 2] rfl (by simp [dropna])
    exact ⟨h, hok, hsum⟩
  · exact (prepare_histogram_spec_amended ⟨[("a", Column.numeric [some 1, some 2])]⟩ "z" 2
      (by norm_num)).1.mpr (Or.inl rfl)

end
